import Mathlib

/-!
Formal model of the core pipeline of `src/app.py` (Spotify Playlist Finder).

Python strings are modelled as `List Char`.  The functions of the app —
`normalize_url`, `canonical_spotify_url`, `only_playlist_results`,
`build_queries`, `google_cse_request`, `run_google_only` — are transliterated
below, together with the parts of the Python standard library they rely on
(`urllib.parse.urlparse` / `parse_qs` / `unquote`, `str.strip`, `str.replace`,
`itertools.combinations`).  Code that can raise a Python exception is modelled
with `Except Unit`; external I/O (the Google Custom Search HTTP endpoint) is
abstracted as an oracle function passed explicitly.

The `urlparse` model follows CPython 3.10 `urllib.parse.urlsplit`/`urlparse`:
leading WHATWG C0-control-or-space characters are stripped, all tab/CR/LF
characters are removed, an optional scheme is split off at the first `:`,
a `//`-introduced netloc runs until the first of `/?#` (raising `ValueError`
on a mismatched `[`/`]` bracket in the netloc), the fragment is split at the
first `#`, the query at the first `?`, and for schemes in `uses_params` a
trailing `;parameters` part is split off the last path segment.
(`_checknetloc`, which can only raise for non-ASCII netlocs, and the
CPython-3.11 bracketed-host validation are not modelled.)
`unquote` is modelled for single-byte percent escapes: `%XY` decodes to the
character with code `0xXY`; multi-byte UTF-8 escape sequences (irrelevant to
every claim considered here) are decoded bytewise instead of as UTF-8.
-/

/-- Python strings, modelled as lists of characters. -/
abbrev PyStr := List Char

/-- Python truthiness of a string: `bool(s)` is `True` iff `s` is non-empty. -/
def pyTruthy (s : PyStr) : Bool := !s.isEmpty

/-- Python `a or b or ... or ""` over possibly-missing string fields:
the first value that is present and non-empty, else the empty string. -/
def pyOrChain : List (Option PyStr) → PyStr
  | [] => []
  | none :: rest => pyOrChain rest
  | some s :: rest => if s.isEmpty then pyOrChain rest else s

/-- Characters of CPython's `_WHATWG_C0_CONTROL_OR_SPACE`. -/
def isC0OrSpace (c : Char) : Bool := c.toNat ≤ 0x20

/-- Characters of CPython's `_UNSAFE_URL_BYTES_TO_REMOVE` (tab, CR, LF). -/
def isUnsafeUrlByte (c : Char) : Bool := c = '\t' || c = '\r' || c = '\n'

/-- CPython `urlsplit` preprocessing: `url.lstrip(_WHATWG_C0_CONTROL_OR_SPACE)`. -/
def pyLStripC0 (s : PyStr) : PyStr := s.dropWhile isC0OrSpace

/-- CPython `urlsplit` preprocessing: removal of every tab/CR/LF character. -/
def removeUnsafeBytes (s : PyStr) : PyStr := s.filter (fun c => !isUnsafeUrlByte c)

/-- Characters allowed in a URL scheme (CPython `scheme_chars`). -/
def isSchemeChar (c : Char) : Bool :=
  c.isAlpha || c.isDigit || c = '+' || c = '-' || c = '.'

/-- Split a string at the first occurrence of `sep`:
`some (before, after)` if `sep` occurs, `none` otherwise.
This models both Python `s.find(sep)` plus slicing and `s.split(sep, 1)`. -/
def splitOnFirstChar (sep : Char) : PyStr → Option (PyStr × PyStr)
  | [] => none
  | c :: cs =>
    if c = sep then some ([], cs)
    else
      match splitOnFirstChar sep cs with
      | none => none
      | some (a, b) => some (c :: a, b)

/-- Scheme recognition of CPython `urlsplit`: if the part before the first `:`
is non-empty and consists of scheme characters, it is the (lowercased) scheme. -/
def splitScheme (url : PyStr) : PyStr × PyStr :=
  match splitOnFirstChar ':' url with
  | some (pre, post) =>
    if !pre.isEmpty && pre.all isSchemeChar then (pre.map Char.toLower, post) else ([], url)
  | none => ([], url)

/-- Delimiters ending the netloc in CPython `_splitnetloc`. -/
def isNetlocDelim (c : Char) : Bool := c = '/' || c = '?' || c = '#'

/-- Result of CPython `urlparse`: the six named components. -/
structure UrlParts where
  scheme : PyStr
  netloc : PyStr
  path : PyStr
  params : PyStr
  query : PyStr
  fragment : PyStr
deriving DecidableEq, Repr

instance {ε α : Type} [DecidableEq ε] [DecidableEq α] : DecidableEq (Except ε α) := fun a b =>
  match a, b with
  | .ok x, .ok y =>
    if h : x = y then isTrue (congrArg Except.ok h) else isFalse (fun hc => h (Except.ok.inj hc))
  | .error x, .error y =>
    if h : x = y then isTrue (congrArg Except.error h)
    else isFalse (fun hc => h (Except.error.inj hc))
  | .ok _, .error _ => isFalse (fun hc => Except.noConfusion hc)
  | .error _, .ok _ => isFalse (fun hc => Except.noConfusion hc)

/-- CPython 3.10 `urllib.parse.urlsplit`.  `Except.error ()` models the
`ValueError("Invalid IPv6 URL")` raised on a mismatched bracket in the netloc.
The `params` component is always empty here (it is filled in by `urlparseE`). -/
def urlsplitE (url0 : PyStr) : Except Unit UrlParts :=
  let url1 := removeUnsafeBytes (pyLStripC0 url0)
  let sp := splitScheme url1
  let scheme := sp.1
  let url2 := sp.2
  if url2.take 2 = ['/', '/'] then
    let rest := url2.drop 2
    let netloc := rest.takeWhile (fun c => !isNetlocDelim c)
    let after := rest.dropWhile (fun c => !isNetlocDelim c)
    if (netloc.contains '[' && !netloc.contains ']') ||
        (netloc.contains ']' && !netloc.contains '[') then
      .error ()
    else
      let fp := match splitOnFirstChar '#' after with
        | some (a, b) => (a, b)
        | none => (after, [])
      let qp := match splitOnFirstChar '?' fp.1 with
        | some (a, b) => (a, b)
        | none => (fp.1, [])
      .ok ⟨scheme, netloc, qp.1, [], qp.2, fp.2⟩
  else
    let fp := match splitOnFirstChar '#' url2 with
      | some (a, b) => (a, b)
      | none => (url2, [])
    let qp := match splitOnFirstChar '?' fp.1 with
      | some (a, b) => (a, b)
      | none => (fp.1, [])
    .ok ⟨scheme, [], qp.1, [], qp.2, fp.2⟩

/-- CPython `uses_params`: the schemes for which `urlparse` splits `;params`
off the path. -/
def usesParams : List PyStr :=
  ["".data, "ftp".data, "hdl".data, "prospero".data, "http".data, "imap".data,
   "https".data, "shttp".data, "rtsp".data, "rtspu".data, "sip".data, "sips".data,
   "mms".data, "sftp".data, "tel".data]

/-- Index of the last occurrence of `c` in `s` (Python `s.rfind(c)`),
`none` when absent. -/
def rfindChar (c : Char) (s : PyStr) : Option Nat :=
  match s.reverse.findIdx? (fun d => d = c) with
  | some j => some (s.length - 1 - j)
  | none => none

/-- First index `≥ k` of `c` in `s` (Python `s.find(c, k)`), `none` when absent. -/
def findCharFrom (c : Char) (s : PyStr) (k : Nat) : Option Nat :=
  match (s.drop k).findIdx? (fun d => d = c) with
  | some j => some (k + j)
  | none => none

/-- CPython `_splitparams`, as invoked from `urlparse` (the caller guarantees
that `;` occurs in `url`). -/
def splitParams (url : PyStr) : PyStr × PyStr :=
  if url.contains '/' then
    match rfindChar '/' url with
    | some k =>
      match findCharFrom ';' url k with
      | none => (url, [])
      | some i => (url.take i, url.drop (i + 1))
    | none => (url, [])
  else
    match splitOnFirstChar ';' url with
    | some (a, b) => (a, b)
    | none => (url, [])

/-- CPython 3.10 `urllib.parse.urlparse`. -/
def urlparseE (u : PyStr) : Except Unit UrlParts :=
  match urlsplitE u with
  | .error e => .error e
  | .ok p =>
    if usesParams.contains p.scheme && p.path.contains ';' then
      let pr := splitParams p.path
      .ok { p with path := pr.1, params := pr.2 }
    else .ok p

/-- Hexadecimal digit test, as in CPython `unquote`. -/
def isHexDigit (c : Char) : Bool :=
  c.isDigit || ('a' ≤ c && c ≤ 'f') || ('A' ≤ c && c ≤ 'F')

/-- Value of a hexadecimal digit. -/
def hexVal (c : Char) : Nat :=
  if c.isDigit then c.toNat - 48
  else if 'a' ≤ c then c.toNat - 87
  else c.toNat - 55

/-- CPython `urllib.parse.unquote` restricted to single-byte escapes: each
valid `%XY` escape decodes to the character with code `0xXY`; invalid escapes
are kept verbatim.  (Multi-byte UTF-8 escape sequences are decoded bytewise
instead of as UTF-8; no claim here involves a non-ASCII escape.) -/
def pyUnquote : PyStr → PyStr
  | [] => []
  | '%' :: a :: b :: rest =>
    if isHexDigit a && isHexDigit b then
      Char.ofNat (16 * hexVal a + hexVal b) :: pyUnquote rest
    else '%' :: pyUnquote (a :: b :: rest)
  | c :: rest => c :: pyUnquote rest

/-- CPython `urllib.parse.unquote_plus`: `+` becomes a space, then unquote. -/
def pyUnquotePlus (s : PyStr) : PyStr :=
  pyUnquote (s.map (fun c => if c = '+' then ' ' else c))

/-- Helper for `splitAllOn`: `cur` holds the current piece, reversed. -/
def splitAllGo (sep : Char) (cur : PyStr) : PyStr → List PyStr
  | [] => [cur.reverse]
  | c :: cs =>
    if c = sep then cur.reverse :: splitAllGo sep [] cs else splitAllGo sep (c :: cur) cs

/-- Python `qs.split(sep)`: split on every occurrence, keeping empty pieces. -/
def splitAllOn (sep : Char) (s : PyStr) : List PyStr := splitAllGo sep [] s

/-- CPython `parse_qsl` with default arguments: split the query string on `&`,
drop empty pieces, pieces without `=` and pieces with an empty value, and
percent-decode (`unquote_plus`) both name and value. -/
def parseQsl (qs : PyStr) : List (PyStr × PyStr) :=
  (splitAllOn '&' qs).filterMap (fun nv =>
    if nv.isEmpty then none
    else
      match splitOnFirstChar '=' nv with
      | none => none
      | some (n, v) =>
        if v.isEmpty then none else some (pyUnquotePlus n, pyUnquotePlus v))

/-- For `q = parse_qs(query)`:  `q[key][0]` if `key in q`, else `none`
(`parse_qs` groups `parse_qsl` pairs in order, so the first value wins). -/
def qsFirst (pairs : List (PyStr × PyStr)) (key : PyStr) : Option PyStr :=
  (pairs.find? (fun pr => pr.1 == key)).map (fun pr => pr.2)

/-- Python `sub in s` on strings: substring test. -/
def listHasSub (sub : PyStr) : PyStr → Bool
  | [] => sub.isEmpty
  | c :: cs => sub.isPrefixOf (c :: cs) || listHasSub sub cs

/-- Constant `SPOTIFY_HOST` of `src/app.py`. -/
def SPOTIFY_HOST : PyStr := "open.spotify.com".data

/-- Constant `PLAYLIST_TOKEN` of `src/app.py`. -/
def PLAYLIST_TOKEN : PyStr := "/playlist".data

/-- Function `normalize_url` of `src/app.py` (lines 40-53): unwrap the Google
redirector (`host` ending in `google.com`, path starting with `/url`) through
the query parameters `url`, `q`, `u`, tried in that order. -/
def normalize_url (u : PyStr) : PyStr :=
  if u.isEmpty then []
  else
    match urlparseE u with
    | .error _ => u
    | .ok p =>
      if ("google.com".data).isSuffixOf p.netloc && ("/url".data).isPrefixOf p.path then
        let q := parseQsl p.query
        match qsFirst q ("url".data) with
        | some v => v
        | none =>
          match qsFirst q ("q".data) with
          | some v => v
          | none =>
            match qsFirst q ("u".data) with
            | some v => v
            | none => u
      else u

/-- Python `s.replace(old, new, 1)`: replace the first occurrence of `old`. -/
def pyReplaceFirst (old new : PyStr) : PyStr → PyStr
  | [] => if old.isPrefixOf [] then new ++ ([] : PyStr).drop old.length else []
  | c :: cs =>
    if old.isPrefixOf (c :: cs) then new ++ (c :: cs).drop old.length
    else c :: pyReplaceFirst old new cs

/-- Python `s.rstrip("/")`: remove every trailing `/`. -/
def pyRstripSlash (s : PyStr) : PyStr :=
  (s.reverse.dropWhile (fun c => c = '/')).reverse

/-- Function `canonical_spotify_url` of `src/app.py` (lines 55-67). -/
def canonical_spotify_url (u0 : PyStr) : PyStr :=
  let u := normalize_url u0
  match urlparseE u with
  | .error _ => u
  | .ok p =>
    if listHasSub SPOTIFY_HOST p.netloc then
      let path := p.path
      let path1 :=
        if ("/embed/".data).isPrefixOf path then pyReplaceFirst ("/embed".data) [] path
        else path
      let path2 := pyRstripSlash path1
      "https://".data ++ SPOTIFY_HOST ++ path2
    else u

/-- Raw search-backend record: an untyped dict with several possible field
names; a missing key (`dict.get` returning `None`) is `none`. -/
structure RawResult where
  url : Option PyStr
  link : Option PyStr
  href : Option PyStr
  title : Option PyStr
  name : Option PyStr
  snippet : Option PyStr
  body : Option PyStr
deriving DecidableEq, Repr

/-- Record emitted by the result filter: `{"title": ..., "url": ..., "snippet": ...}`. -/
structure CResult where
  title : PyStr
  url : PyStr
  snippet : PyStr
deriving DecidableEq, Repr

/-- Loop body of `only_playlist_results` of `src/app.py` (lines 69-89), with
the `seen` set made explicit.  The bare `urlparse(url)` call at line 80 can
raise `ValueError`; this propagates (`Except.error`), aborting the whole call. -/
def filterGo (seen : List PyStr) : List RawResult → Except Unit (List CResult)
  | [] => .ok []
  | r :: rest =>
    let raw_url := pyOrChain [r.url, r.link, r.href]
    let url := canonical_spotify_url raw_url
    let title0 := pyOrChain [r.title, r.name]
    let title := if title0.isEmpty then url else title0
    let snippet := pyOrChain [r.snippet, r.body]
    if url.isEmpty then filterGo seen rest
    else
      match urlparseE url with
      | .error _ => .error ()
      | .ok p =>
        if !listHasSub SPOTIFY_HOST p.netloc || !listHasSub PLAYLIST_TOKEN p.path then
          filterGo seen rest
        else
          let key := url.takeWhile (fun c => c ≠ '?')
          if seen.contains key then filterGo seen rest
          else
            match filterGo (key :: seen) rest with
            | .error e => .error e
            | .ok out => .ok (⟨title, key, snippet⟩ :: out)

/-- Function `only_playlist_results` of `src/app.py` (lines 69-89). -/
def only_playlist_results (results : List RawResult) : Except Unit (List CResult) :=
  filterGo [] results

/-- Characters for which Python `str.isspace()` holds (stripped by `str.strip()`). -/
def pyIsSpace (c : Char) : Bool :=
  [9, 10, 11, 12, 13, 28, 29, 30, 31, 32, 133, 160, 5760, 8192, 8193, 8194, 8195,
    8196, 8197, 8198, 8199, 8200, 8201, 8202, 8232, 8233, 8239, 8287, 12288].contains c.toNat

/-- Python `s.strip()` with no arguments: strip whitespace from both ends. -/
def pyStrip (s : PyStr) : PyStr :=
  ((s.dropWhile pyIsSpace).reverse.dropWhile pyIsSpace).reverse

/-- Python `sep.join(xs)`. -/
def pyJoin (sep : PyStr) : List PyStr → PyStr
  | [] => []
  | [x] => x
  | x :: y :: rest => x ++ sep ++ pyJoin sep (y :: rest)

/-- The f-string `f'"{s}"'`: wrap a term in double quotes. -/
def quoteTerm (s : PyStr) : PyStr := '"' :: (s ++ ['"'])

/-- Python `itertools.combinations(l, 2)`, in its documented order. -/
def pairsComb : List α → List (α × α)
  | [] => []
  | x :: xs => (xs.map (fun y => (x, y))) ++ pairsComb xs

/-- The list comprehension `[s.strip() for s in terms if s and s.strip()]`
opening `build_queries`. -/
def trimmedTerms (terms : List PyStr) : List PyStr :=
  (terms.filter (fun s => pyTruthy s && pyTruthy (pyStrip s))).map pyStrip

/-- The fixed pre-dedup query list built by `build_queries` of `src/app.py`
(lines 100-111). -/
def rawQueries (terms : List PyStr) : List PyStr :=
  let t := trimmedTerms terms
  let quoted_all := pyJoin (" ".data) (t.map quoteTerm)
  let base_site := "site:".data ++ SPOTIFY_HOST
  [pyStrip (base_site ++ " inurl:playlist ".data ++ quoted_all),
   pyStrip (base_site ++ " intitle:playlist ".data ++ quoted_all),
   pyStrip (base_site ++ " ".data ++ quoted_all ++ " \"playlist\"".data)] ++
  (if t.length ≥ 3 then
    ((pairsComb t).take 10).map (fun ab =>
      base_site ++ " inurl:playlist \"".data ++ ab.1 ++ "\" \"".data ++ ab.2 ++ "\"".data)
   else [])

/-- The order-preserving dedup loop closing `build_queries` (lines 113-118). -/
def pyDedupGo (seen : List PyStr) : List PyStr → List PyStr
  | [] => []
  | q :: rest =>
    if seen.contains q then pyDedupGo seen rest else q :: pyDedupGo (q :: seen) rest

/-- Function `build_queries` of `src/app.py` (lines 92-118). -/
def build_queries (terms : List PyStr) : List PyStr :=
  pyDedupGo [] (rawQueries terms)

/-- One item of the Google CSE JSON `items` array (fields used by the app). -/
structure GItem where
  title : Option PyStr
  link : Option PyStr
  snippet : Option PyStr
deriving DecidableEq, Repr

/-- The per-query diagnostic dict built by `google_cse_request`.  The
missing-credentials branch returns a dict holding only `error`, so every
field is optional. -/
structure GMeta where
  query : Option PyStr
  mode : Option PyStr
  dupeFilter : Option Nat
  totalResults : Option PyStr
  returned : Option Nat
  error : Option PyStr
deriving DecidableEq, Repr

/-- Abstract HTTP/JSON layer of `google_cse_request`: given the query, `num`,
`start`, `mode` and `filter` request parameters, the external service yields
either an exception text (any failure of the request, `raise_for_status` or
JSON decoding) or the pair (`searchInformation.totalResults` if present,
`items`). -/
def HttpOracle : Type :=
  PyStr → Nat → Nat → PyStr → Nat → Except PyStr (Option PyStr × List GItem)

/-- Pagination loop of `google_cse_request` (lines 131-167): accumulates
`out`, advances `start` by 10, stops on a full batch, an empty page, an
exception, or `start > 91`.  Returns (`out`, `total`, `last_err`). -/
def gcrLoop (http : HttpOracle) (q : PyStr) (wanted : Nat) (mode : PyStr) (filt : Nat)
    (out : List RawResult) (start : Nat) (total : Option PyStr) (lastErr : Option PyStr) :
    List RawResult × Option PyStr × Option PyStr :=
  if _h : out.length < wanted ∧ start ≤ 91 then
    match http q (min 10 (wanted - out.length)) start mode filt with
    | .error e => (out, total, some e)
    | .ok (tot, items) =>
      let total1 := match total with
        | some t => some t
        | none => tot
      let out1 := out ++ items.map (fun it => ⟨it.link, none, none, it.title, none, it.snippet, none⟩)
      if items.isEmpty then (out1, total1, lastErr)
      else gcrLoop http q wanted mode filt out1 (start + 10) total1 lastErr
  else (out, total, lastErr)
termination_by 92 - start
decreasing_by omega

/-- The error message of the missing-credentials branch (line 123). -/
def missingCredsMsg : PyStr := "Missing GOOGLE_API_KEY or GOOGLE_CSE_ID".data

/-- Function `google_cse_request` of `src/app.py` (lines 120-170), with the
credentials passed explicitly and the HTTP client abstracted as an oracle. -/
def google_cse_request (apiKey cseId : PyStr) (http : HttpOracle) (q : PyStr)
    (wanted : Nat) (mode : PyStr) (filt : Nat) : List RawResult × GMeta :=
  if !(pyTruthy apiKey && pyTruthy cseId) then
    ([], ⟨none, none, none, none, none, some missingCredsMsg⟩)
  else
    let r := gcrLoop http q wanted mode filt [] 1 none none
    (r.1.take wanted, ⟨some q, some mode, some filt, r.2.1, some r.1.length, r.2.2⟩)

/-- A provider call as seen by `run_google_only`: the signature of
`google_cse_request` with credentials and HTTP client already fixed. -/
def FetchFn : Type := PyStr → Nat → PyStr → Nat → List RawResult × GMeta

/-- Python truthiness of `meta.get("error")`: present and non-empty. -/
def metaErrTruthy (m : GMeta) : Bool :=
  match m.error with
  | none => false
  | some e => !e.isEmpty

/-- Inner merge loop of `run_google_only` (lines 185-192): fold filtered
records into the accumulator, returning early (flag `true`) as soon as
`max_results` is reached. -/
def innerMerge (maxR : Nat) : List CResult → List CResult → List PyStr →
    List CResult × List PyStr × Bool
  | [], merged, seen => (merged, seen, false)
  | r :: rest, merged, seen =>
    if seen.contains r.url then innerMerge maxR rest merged seen
    else
      let merged1 := merged ++ [r]
      let seen1 := r.url :: seen
      if maxR ≤ merged1.length then (merged1, seen1, true)
      else innerMerge maxR rest merged1 seen1

/-- The attempt sequence of `run_google_only`: for each query, each of the
three parameter modes, and each dupe-filter flag, in loop order (lines 178-180). -/
def attemptsFor (queries : List PyStr) : List (PyStr × PyStr × Nat) :=
  queries.flatMap (fun q =>
    (["siteSearch".data, "as_sitesearch".data, "none".data]).flatMap (fun m =>
      [1, 0].map (fun f => (q, m, f))))

/-- Main loop of `run_google_only` (lines 178-193) over the flattened attempt
sequence.  An attempt whose meta carries a truthy error is skipped after being
recorded; an exception escaping `only_playlist_results` propagates. -/
def mergeAttempts (fetch : FetchFn) (maxR : Nat) :
    List (PyStr × PyStr × Nat) → List CResult → List PyStr → List GMeta →
    Except Unit (List CResult × List GMeta)
  | [], merged, _seen, debug => .ok (merged.take maxR, debug)
  | (q, m, f) :: rest, merged, seen, debug =>
    let rm := fetch q 100 m f
    let debug1 := debug ++ [rm.2]
    if metaErrTruthy rm.2 then mergeAttempts fetch maxR rest merged seen debug1
    else
      match only_playlist_results rm.1 with
      | .error e => .error e
      | .ok filtered =>
        let im := innerMerge maxR filtered merged seen
        if im.2.2 then .ok (im.1, debug1)
        else mergeAttempts fetch maxR rest im.1 im.2.1 debug1

/-- Function `run_google_only` of `src/app.py` (lines 172-193), with the
provider call passed as a function. -/
def run_google_only (fetch : FetchFn) (terms : List PyStr) (maxR : Nat) :
    Except Unit (List CResult × List GMeta) :=
  mergeAttempts fetch maxR (attemptsFor (build_queries terms)) [] [] []

/-- Fetch stub used to exhibit the `max_results = 0` behaviour of
`run_google_only`: every attempt succeeds with one raw playlist record. -/
def fetchC6 : FetchFn := fun q _w _m _f =>
  ([⟨some ("https://open.spotify.com/playlist/ABC".data), none, none, some ("T".data),
      none, some ("S".data), none⟩],
   ⟨some q, some ("siteSearch".data), some 1, none, some 1, none⟩)

/-- HTTP oracle that is never consulted in the missing-credentials branch. -/
def httpNever : HttpOracle := fun _ _ _ _ _ => .error ("unreachable".data)

/-- Per-record processing of `only_playlist_results` before deduplication:
`ok none` when the record is skipped by a gate, `ok (some c)` when it yields
a candidate, `error` when line 80's `urlparse` raises. -/
def processRecord (r : RawResult) : Except Unit (Option CResult) :=
  let raw_url := pyOrChain [r.url, r.link, r.href]
  let url := canonical_spotify_url raw_url
  let title0 := pyOrChain [r.title, r.name]
  let title := if title0.isEmpty then url else title0
  let snippet := pyOrChain [r.snippet, r.body]
  if url.isEmpty then .ok none
  else
    match urlparseE url with
    | .error _ => .error ()
    | .ok p =>
      if !listHasSub SPOTIFY_HOST p.netloc || !listHasSub PLAYLIST_TOKEN p.path then .ok none
      else .ok (some ⟨title, url.takeWhile (fun c => c ≠ '?'), snippet⟩)

/-- The candidate sequence of a batch: every record that passes the gates, in
input order, before deduplication. -/
def candidatesE : List RawResult → Except Unit (List CResult)
  | [] => .ok []
  | r :: rest =>
    match processRecord r with
    | .error e => .error e
    | .ok none => candidatesE rest
    | .ok (some c) =>
      match candidatesE rest with
      | .error e => .error e
      | .ok cs => .ok (c :: cs)

/-- Keep the first occurrence of each `url` not already in `seen`, preserving
order. -/
def dedupFrom (seen : List PyStr) : List CResult → List CResult
  | [] => []
  | c :: cs =>
    if seen.contains c.url then dedupFrom seen cs else c :: dedupFrom (c.url :: seen) cs

/-- Input of the C1 witness: two raw records whose urls canonicalize to the
same value (one `/embed/` with a query string, one plain). -/
def c1ExampleInput : List RawResult :=
  [⟨some ("https://open.spotify.com/embed/playlist/XYZ?si=1".data), none, none,
     some ("First".data), none, some ("S1".data), none⟩,
   ⟨some ("https://open.spotify.com/playlist/XYZ".data), none, none,
     some ("Second".data), none, some ("S2".data), none⟩]

/-- Fetch stub whose every call reports an error. -/
def fetchFail : FetchFn := fun q _w m f =>
  ([], ⟨some q, some m, some f, none, some 0, some ("boom".data)⟩)

/-- Guard under which canonicalization is idempotent: when the unwrapped URL
is a Spotify-host URL, its canonical path must not again begin with `/embed/`
and must not expose a `;params` suffix to the re-parse. -/
def canonIdemGuard (u : PyStr) : Bool :=
  match urlparseE (normalize_url u) with
  | .error _ => true
  | .ok p =>
    if listHasSub SPOTIFY_HOST p.netloc then
      let path1 := if ("/embed/".data).isPrefixOf p.path then
        pyReplaceFirst ("/embed".data) [] p.path else p.path
      let p2 := pyRstripSlash path1
      !(("/embed/".data).isPrefixOf p2) &&
        (!p2.contains ';' || decide (splitParams p2 = (p2, ([] : PyStr))))
    else true

theorem splitOnFirstChar_none_iff {sep : Char} {s : PyStr} :
    splitOnFirstChar sep s = none ↔ sep ∉ s := by
  induction s with
  | nil => simp [splitOnFirstChar]
  | cons c cs ih =>
    rw [splitOnFirstChar]
    by_cases hc : c = sep
    · subst hc; simp
    · rw [if_neg hc]
      cases hsp : splitOnFirstChar sep cs with
      | none =>
        have hm := ih.mp hsp
        simp [List.mem_cons, hm, Ne.symm hc]
      | some ab =>
        obtain ⟨a, b⟩ := ab
        have hm : sep ∈ cs := by
          by_contra hnot
          rw [ih.mpr hnot] at hsp
          cases hsp
        simp [List.mem_cons, hm]

theorem splitOnFirstChar_some_spec {sep : Char} {s a b : PyStr}
    (h : splitOnFirstChar sep s = some (a, b)) : s = a ++ sep :: b ∧ sep ∉ a := by
  induction s generalizing a b with
  | nil => cases h
  | cons c cs ih =>
    rw [splitOnFirstChar] at h
    by_cases hc : c = sep
    · rw [if_pos hc] at h
      simp only [Option.some.injEq, Prod.mk.injEq] at h
      obtain ⟨ha, hb⟩ := h
      subst ha; subst hb
      simp [hc]
    · rw [if_neg hc] at h
      cases hsp : splitOnFirstChar sep cs with
      | none => rw [hsp] at h; cases h
      | some ab =>
        obtain ⟨x, y⟩ := ab
        rw [hsp] at h
        simp only [Option.some.injEq, Prod.mk.injEq] at h
        obtain ⟨ha, hb⟩ := h
        subst ha; subst hb
        obtain ⟨hs, hna⟩ := ih hsp
        refine ⟨by simp [hs], ?_⟩
        simp [List.mem_cons, hna, Ne.symm hc]

theorem isPrefixOf_iff_pre {l1 l2 : PyStr} : l1.isPrefixOf l2 = true ↔ l1 <+: l2 :=
  List.isPrefixOf_iff_prefix

theorem take_isPre {α : Type} (n : Nat) (l : List α) : l.take n <+: l :=
  List.take_prefix n l

theorem reverse_isPre_reverse {α : Type} {l1 l2 : List α} :
    l1.reverse <+: l2.reverse ↔ l1 <:+ l2 :=
  List.reverse_prefix

theorem listHasSub_iff {sub s : PyStr} : listHasSub sub s = true ↔ sub <:+: s := by
  induction s with
  | nil => simp [listHasSub, List.isEmpty_iff]
  | cons c cs ih =>
    rw [listHasSub]
    simp only [Bool.or_eq_true, isPrefixOf_iff_pre, ih, List.infix_cons_iff]

theorem pyReplaceFirst_of_isPrefixOf {old new s : PyStr} (h : old.isPrefixOf s = true) :
    pyReplaceFirst old new s = new ++ s.drop old.length := by
  cases s with
  | nil => simp [pyReplaceFirst, h]
  | cons c cs => simp [pyReplaceFirst, h]

/-- C2: for every URL whose (redirector-unwrapped) parse succeeds with a host
containing `open.spotify.com`, `canonical_spotify_url` returns
`https://open.spotify.com` followed by the parsed path with a leading `/embed`
segment removed and trailing slashes stripped; query and fragment are dropped
(only the path component is used). -/
theorem c2_canonical_embed_strip (u : PyStr) (p : UrlParts)
    (hp : urlparseE (normalize_url u) = .ok p)
    (hhost : listHasSub SPOTIFY_HOST p.netloc = true) :
    canonical_spotify_url u =
      "https://open.spotify.com".data ++
        pyRstripSlash (if ("/embed/".data).isPrefixOf p.path then p.path.drop 6 else p.path) := by
  rw [canonical_spotify_url]
  rw [hp]
  simp only [hhost, if_true]
  by_cases hemb : ("/embed/".data).isPrefixOf p.path = true
  · have hemb6 : ("/embed".data).isPrefixOf p.path = true := by
      rw [isPrefixOf_iff_pre] at hemb ⊢
      exact List.IsPrefix.trans ⟨['/'], rfl⟩ hemb
    rw [if_pos hemb, if_pos hemb, pyReplaceFirst_of_isPrefixOf hemb6]
    rfl
  · rw [if_neg hemb, if_neg hemb]
    rfl

/-- C2 witness: the spec's own example, `https://open.spotify.com/embed/playlist/XYZ?utm=1`
canonicalizes to `https://open.spotify.com/playlist/XYZ`, via `c2_canonical_embed_strip`. -/
theorem c2_witness :
    urlparseE (normalize_url ("https://open.spotify.com/embed/playlist/XYZ?utm=1".data)) =
      .ok ⟨"https".data, "open.spotify.com".data, "/embed/playlist/XYZ".data, [], "utm=1".data, []⟩ ∧
    canonical_spotify_url ("https://open.spotify.com/embed/playlist/XYZ?utm=1".data) =
      ("https://open.spotify.com/playlist/XYZ".data) := by
  constructor
  · decide
  · exact (c2_canonical_embed_strip _
      ⟨"https".data, "open.spotify.com".data, "/embed/playlist/XYZ".data, [], "utm=1".data, []⟩
      (by decide) (by decide)).trans (by decide)

/-- C3 counterexample: canonicalization is not idempotent.  On
`https://open.spotify.com/embed/embed/playlist/AB` the first pass strips only
the first `/embed` segment, so a second pass changes the result again. -/
theorem c3_counterexample :
    canonical_spotify_url (canonical_spotify_url
      ("https://open.spotify.com/embed/embed/playlist/AB".data)) ≠
    canonical_spotify_url ("https://open.spotify.com/embed/embed/playlist/AB".data) := by decide

/-- C4 counterexample: the claimed `uddg` unwrap does not exist in the code:
the spec's example redirector URL is returned unchanged instead of yielding
`https://open.spotify.com/playlist/ABC`. -/
theorem c4_counterexample :
    canonical_spotify_url
      ("https://duckduckgo.com/l/?uddg=https%3A%2F%2Fopen.spotify.com%2Fplaylist%2FABC".data) ≠
    ("https://open.spotify.com/playlist/ABC".data) := by decide

/-- C4 (amended): the redirector unwrap handles only the Google provider
(host ending in `google.com`, path starting with `/url`), extracting the
destination from the query parameters `url`, `q`, `u` in that priority order
(percent-decoded); a `uddg`-style redirector URL is not unwrapped and passes
through `canonical_spotify_url` unchanged. -/
theorem c4_amended_redirector :
    normalize_url
      ("https://www.google.com/url?q=https://example.com/x&url=https://open.spotify.com/playlist/A".data) =
      ("https://open.spotify.com/playlist/A".data) ∧
    normalize_url
      ("https://www.google.com/url?u=https://example.com/y&q=https%3A%2F%2Fopen.spotify.com%2Fplaylist%2FB".data) =
      ("https://open.spotify.com/playlist/B".data) ∧
    normalize_url ("https://www.google.com/url?u=https://open.spotify.com/playlist/C".data) =
      ("https://open.spotify.com/playlist/C".data) ∧
    canonical_spotify_url
      ("https://www.google.com/url?q=https%3A%2F%2Fopen.spotify.com%2Fplaylist%2FABC".data) =
      ("https://open.spotify.com/playlist/ABC".data) ∧
    canonical_spotify_url
      ("https://duckduckgo.com/l/?uddg=https%3A%2F%2Fopen.spotify.com%2Fplaylist%2FABC".data) =
      ("https://duckduckgo.com/l/?uddg=https%3A%2F%2Fopen.spotify.com%2Fplaylist%2FABC".data) := by
  refine ⟨?_, ?_, ?_, ?_, ?_⟩ <;> decide

/-- C5: evaluating the filter at the failing input.  A record whose url is the
non-URL string `http://[` makes `only_playlist_results` raise `ValueError`
(the bare `urlparse(url)` call at line 80) instead of skipping the record. -/
theorem c5_failing_eval :
    only_playlist_results [⟨some ("http://[".data), none, none, none, none, none, none⟩] =
      .error () := by decide

/-- C6 counterexample: with `max_results = 0` the merger still returns one
record (the cap check `len(merged) >= max_results` runs only after a first
append), so "at most max_results results for every bound" fails at 0. -/
theorem c6_counterexample :
    ¬ ∀ out ds, run_google_only fetchC6 [("A".data)] 0 = .ok (out, ds) → out.length ≤ 0 := by
  intro h
  exact absurd
    (h [⟨"T".data, "https://open.spotify.com/playlist/ABC".data, "S".data⟩]
      [⟨some ("site:open.spotify.com inurl:playlist \"A\"".data), some ("siteSearch".data),
        some 1, none, some 1, none⟩]
      (by decide))
    (by decide)

/-- C8 counterexample: for the three-term list `["A","A","A"]` (n = 3 after
trimming) `build_queries` returns 4 queries, not the claimed
`3 + min(C(3,2),10) = 6`: the three pairwise variants coincide and are
deduplicated. -/
theorem c8_counterexample :
    (build_queries [("A".data), ("A".data), ("A".data)]).length = 4 ∧
    3 + min (Nat.choose (trimmedTerms [("A".data), ("A".data), ("A".data)]).length 2) 10 = 6 := by
  constructor <;> decide

/-- C9 counterexample: with both credentials absent, `google_cse_request`
does report the condition as an error: the returned meta dict carries the
error string (so "the condition is not reported as an error" fails). -/
theorem c9_counterexample :
    (google_cse_request [] [] httpNever ("site:open.spotify.com inurl:playlist \"A\"".data)
        100 ("siteSearch".data) 1).2.error ≠ none := by decide

theorem filterGo_cons (seen : List PyStr) (r : RawResult) (rest : List RawResult) :
    filterGo seen (r :: rest) =
      match processRecord r with
      | .error e => .error e
      | .ok none => filterGo seen rest
      | .ok (some c) =>
        if seen.contains c.url then filterGo seen rest
        else
          match filterGo (c.url :: seen) rest with
          | .error e => .error e
          | .ok out => .ok (c :: out)
    := by
  simp only [filterGo, processRecord]
  by_cases h1 : (canonical_spotify_url (pyOrChain [r.url, r.link, r.href])).isEmpty = true
  · simp [h1]
  · simp only [h1, Bool.false_eq_true, if_false]
    cases hp : urlparseE (canonical_spotify_url (pyOrChain [r.url, r.link, r.href])) with
    | error e => rfl
    | ok p =>
      by_cases h2 : (!listHasSub SPOTIFY_HOST p.netloc ||
          !listHasSub PLAYLIST_TOKEN p.path) = true
      · simp [h2]
      · simp only [h2, Bool.false_eq_true, if_false]

theorem filterGo_eq_candidates (rs : List RawResult) :
    ∀ seen, filterGo seen rs = (candidatesE rs).map (dedupFrom seen) := by
  induction rs with
  | nil => intro seen; rfl
  | cons r rest ih =>
    intro seen
    rw [filterGo_cons]
    cases hr : processRecord r with
    | error e => simp [candidatesE, hr, Except.map]
    | ok oc =>
      cases oc with
      | none => simp [candidatesE, hr, ih seen]
      | some c =>
        simp only [candidatesE, hr]
        cases hc : candidatesE rest with
        | error e =>
          have h1 := ih seen; rw [hc] at h1
          have h2 := ih (c.url :: seen); rw [hc] at h2
          by_cases hs : c.url ∈ seen <;> simp [hs, h1, h2, Except.map]
        | ok cs =>
          have h1 := ih seen; rw [hc] at h1
          have h2 := ih (c.url :: seen); rw [hc] at h2
          by_cases hs : c.url ∈ seen
          · simp [hs, h1, Except.map, dedupFrom]
          · simp [hs, h2, Except.map, dedupFrom]

theorem dedupFrom_sublist (seen : List PyStr) (cs : List CResult) :
    (dedupFrom seen cs).Sublist cs := by
  induction cs generalizing seen with
  | nil => simp [dedupFrom]
  | cons c cs ih =>
    rw [dedupFrom]
    by_cases hs : seen.contains c.url = true
    · exact (if_pos hs ▸ (ih seen).cons c)
    · rw [if_neg hs]
      exact (ih (c.url :: seen)).cons₂ c

theorem mem_dedupFrom {seen : List PyStr} {cs : List CResult} {c : CResult}
    (h : c ∈ dedupFrom seen cs) :
    seen.contains c.url = false ∧ cs.find? (fun c2 => c2.url == c.url) = some c := by
  induction cs generalizing seen with
  | nil => simp [dedupFrom] at h
  | cons c0 cs ih =>
    rw [dedupFrom] at h
    by_cases hs : seen.contains c0.url = true
    · rw [if_pos hs] at h
      obtain ⟨hns, hfind⟩ := ih h
      have hne : (c0.url == c.url) = false := by
        rw [beq_eq_false_iff_ne]
        intro he
        rw [he] at hs
        rw [hs] at hns
        cases hns
      rw [List.find?_cons, hne]
      exact ⟨hns, hfind⟩
    · rw [if_neg hs] at h
      rcases List.mem_cons.mp h with rfl | hmem
      · refine ⟨by simpa using hs, ?_⟩
        rw [List.find?_cons]
        simp
      · obtain ⟨hns, hfind⟩ := ih hmem
        rw [List.contains_cons] at hns
        have h1 : (c.url == c0.url) = false := by
          cases hcc : c.url == c0.url
          · rfl
          · rw [hcc] at hns; cases hns
        have h2 : seen.contains c.url = false := by
          cases hcc : seen.contains c.url
          · rfl
          · rw [hcc] at hns; simp at hns
        have hne : (c0.url == c.url) = false := by
          rw [beq_eq_false_iff_ne] at h1 ⊢
          exact Ne.symm h1
        rw [List.find?_cons, hne]
        exact ⟨h2, hfind⟩

theorem dedupFrom_pairwise (seen : List PyStr) (cs : List CResult) :
    (dedupFrom seen cs).Pairwise (fun a b => a.url ≠ b.url) := by
  induction cs generalizing seen with
  | nil => simp [dedupFrom]
  | cons c0 cs ih =>
    rw [dedupFrom]
    by_cases hs : seen.contains c0.url = true
    · rw [if_pos hs]; exact ih seen
    · rw [if_neg hs]
      refine List.Pairwise.cons ?_ (ih (c0.url :: seen))
      intro b hb
      have := (mem_dedupFrom hb).1
      rw [List.contains_cons] at this
      intro he
      rw [← he] at this
      simp at this

theorem dedupFrom_complete (seen : List PyStr) (cs : List CResult) :
    ∀ c ∈ cs, seen.contains c.url = true ∨ ∃ c2 ∈ dedupFrom seen cs, c2.url = c.url := by
  induction cs generalizing seen with
  | nil => simp
  | cons c0 cs ih =>
    intro c hmem
    rw [dedupFrom]
    rcases List.mem_cons.mp hmem with rfl | hmem2
    · by_cases hs : seen.contains c.url = true
      · exact Or.inl hs
      · exact Or.inr ⟨c, by rw [if_neg hs]; exact List.mem_cons_self c _, rfl⟩
    · by_cases hs : seen.contains c0.url = true
      · rw [if_pos hs]
        exact ih seen c hmem2
      · rw [if_neg hs]
        rcases ih (c0.url :: seen) c hmem2 with hc | ⟨c2, hc2, he⟩
        · rw [List.contains_cons] at hc
          cases hcc : c.url == c0.url
          · rw [hcc] at hc; simp at hc
            exact Or.inl (by simpa using hc)
          · exact Or.inr ⟨c0, List.mem_cons_self c0 _, (beq_iff_eq.mp hcc).symm⟩
        · exact Or.inr ⟨c2, List.mem_cons_of_mem c0 hc2, he⟩

/-- C1: whenever `only_playlist_results` returns (no exception), its output is
exactly the gate-passing candidate sequence deduplicated by canonical url:
no two output records share a `url`, the output is a subsequence of the
candidates (so records appear in the order their canonical urls first appear),
every candidate url is represented, and each output record is the first
candidate bearing its url (so later title/snippet differences are ignored). -/
theorem c1_filter_dedup_first_seen (rs : List RawResult) (out : List CResult)
    (h : only_playlist_results rs = .ok out) :
    ∃ cs, candidatesE rs = .ok cs ∧
      out.Pairwise (fun a b => a.url ≠ b.url) ∧
      out.Sublist cs ∧
      (∀ c ∈ cs, ∃ c2 ∈ out, c2.url = c.url) ∧
      (∀ c ∈ out, cs.find? (fun c2 => c2.url == c.url) = some c) := by
  rw [only_playlist_results, filterGo_eq_candidates] at h
  cases hc : candidatesE rs with
  | error e => rw [hc] at h; cases h
  | ok cs =>
    rw [hc] at h
    simp only [Except.map, Except.ok.injEq] at h
    subst h
    refine ⟨cs, rfl, dedupFrom_pairwise _ _, dedupFrom_sublist _ _, ?_, ?_⟩
    · intro c hmem
      rcases dedupFrom_complete [] cs c hmem with hfalse | hgood
      · simp at hfalse
      · exact hgood
    · intro c hmem
      exact (mem_dedupFrom hmem).2

/-- C1 witness: on `c1ExampleInput` the filter returns exactly one record —
the first-seen one — and `c1_filter_dedup_first_seen` applies to it. -/
theorem c1_witness :
    only_playlist_results c1ExampleInput =
      .ok [⟨"First".data, "https://open.spotify.com/playlist/XYZ".data, "S1".data⟩] ∧
    (∃ cs, candidatesE c1ExampleInput = .ok cs ∧
      ([(⟨"First".data, "https://open.spotify.com/playlist/XYZ".data, "S1".data⟩ : CResult)]).Pairwise
        (fun a b => a.url ≠ b.url) ∧
      ([(⟨"First".data, "https://open.spotify.com/playlist/XYZ".data, "S1".data⟩ : CResult)]).Sublist cs ∧
      (∀ c ∈ cs, ∃ c2 ∈ [(⟨"First".data, "https://open.spotify.com/playlist/XYZ".data, "S1".data⟩ : CResult)],
        c2.url = c.url) ∧
      (∀ c ∈ [(⟨"First".data, "https://open.spotify.com/playlist/XYZ".data, "S1".data⟩ : CResult)],
        cs.find? (fun c2 => c2.url == c.url) = some c)) :=
  ⟨by decide, c1_filter_dedup_first_seen c1ExampleInput
    [⟨"First".data, "https://open.spotify.com/playlist/XYZ".data, "S1".data⟩] (by decide)⟩

theorem innerMerge_length {maxR : Nat} (rs : List CResult) :
    ∀ merged seen, merged.length < maxR →
      (((innerMerge maxR rs merged seen).2.2 = true →
        (innerMerge maxR rs merged seen).1.length = maxR) ∧
       ((innerMerge maxR rs merged seen).2.2 = false →
        (innerMerge maxR rs merged seen).1.length < maxR)) := by
  induction rs with
  | nil =>
    intro merged seen h
    simp only [innerMerge]
    exact ⟨fun hf => Bool.noConfusion hf, fun _ => h⟩
  | cons r rest ih =>
    intro merged seen h
    rw [innerMerge]
    by_cases hs : r.url ∈ seen
    · simpa [hs] using ih merged seen h
    · by_cases hm : maxR ≤ merged.length + 1
      · have hlen : merged.length + 1 = maxR := by omega
        simp [hs, hm, hlen]
      · have hlt : (merged ++ [r]).length < maxR := by
          simp only [List.length_append, List.length_cons, List.length_nil]
          omega
        simpa [hs, hm] using ih (merged ++ [r]) (r.url :: seen) hlt

theorem mergeAttempts_length {fetch : FetchFn} {maxR : Nat}
    (attempts : List (PyStr × PyStr × Nat)) :
    ∀ merged seen debug out ds, merged.length < maxR →
      mergeAttempts fetch maxR attempts merged seen debug = .ok (out, ds) →
      out.length ≤ maxR := by
  induction attempts with
  | nil =>
    intro merged seen debug out ds _ h
    rw [mergeAttempts] at h
    simp only [Except.ok.injEq, Prod.mk.injEq] at h
    rw [← h.1]
    exact List.length_take_le _ _
  | cons a rest ih =>
    intro merged seen debug out ds hlen h
    obtain ⟨q, m, f⟩ := a
    rw [mergeAttempts] at h
    by_cases he : metaErrTruthy (fetch q 100 m f).2 = true
    · rw [if_pos he] at h
      exact ih _ _ _ _ _ hlen h
    · rw [if_neg he] at h
      cases hfil : only_playlist_results (fetch q 100 m f).1 with
      | error e =>
        simp only [hfil] at h
        exact Except.noConfusion h
      | ok filtered =>
        simp only [hfil] at h
        have hspec := innerMerge_length filtered merged seen hlen
        by_cases hfl : (innerMerge maxR filtered merged seen).2.2 = true
        · rw [if_pos hfl] at h
          simp only [Except.ok.injEq, Prod.mk.injEq] at h
          rw [← h.1]
          exact Nat.le_of_eq (hspec.1 hfl)
        · rw [if_neg hfl] at h
          exact ih _ _ _ _ _ (hspec.2 (Bool.not_eq_true _ ▸ hfl)) h

/-- C6 (amended): for every provider behaviour, term list and bound
`max_results ≥ 1`, whenever `run_google_only` returns it returns at most
`max_results` records, however many distinct canonical playlist urls are
available across all query variants, modes and pages. -/
theorem c6_amended_cap (fetch : FetchFn) (terms : List PyStr) (maxR : Nat)
    (out : List CResult) (ds : List GMeta) (h1 : 1 ≤ maxR)
    (h2 : run_google_only fetch terms maxR = .ok (out, ds)) : out.length ≤ maxR :=
  mergeAttempts_length _ [] [] [] out ds (by simpa using h1) h2

/-- C6 witness: with the one-playlist-per-attempt stub and `max_results = 1`,
the search returns exactly one record, within the bound, via `c6_amended_cap`. -/
theorem c6_witness :
    run_google_only fetchC6 [("A".data)] 1 =
      .ok ([⟨"T".data, "https://open.spotify.com/playlist/ABC".data, "S".data⟩],
        [⟨some ("site:open.spotify.com inurl:playlist \"A\"".data), some ("siteSearch".data),
          some 1, none, some 1, none⟩]) ∧
    ([(⟨"T".data, "https://open.spotify.com/playlist/ABC".data, "S".data⟩ : CResult)]).length ≤ 1 :=
  ⟨by decide, c6_amended_cap fetchC6 [("A".data)] 1
    [⟨"T".data, "https://open.spotify.com/playlist/ABC".data, "S".data⟩]
    [⟨some ("site:open.spotify.com inurl:playlist \"A\"".data), some ("siteSearch".data),
      some 1, none, some 1, none⟩]
    (by decide) (by decide)⟩

theorem mergeAttempts_all_errors {fetch : FetchFn} {maxR : Nat}
    (hf : ∀ q m f, metaErrTruthy (fetch q 100 m f).2 = true)
    (attempts : List (PyStr × PyStr × Nat)) :
    ∀ merged seen debug, mergeAttempts fetch maxR attempts merged seen debug =
      .ok (merged.take maxR, debug ++ attempts.map (fun a => (fetch a.1 100 a.2.1 a.2.2).2)) := by
  induction attempts with
  | nil => intro merged seen debug; simp [mergeAttempts]
  | cons a rest ih =>
    intro merged seen debug
    obtain ⟨q, m, f⟩ := a
    rw [mergeAttempts, if_pos (hf q m f), ih]
    simp

theorem build_queries_ne_nil (terms : List PyStr) : build_queries terms ≠ [] := by
  rw [build_queries]
  obtain ⟨a, l, h⟩ : ∃ a l, rawQueries terms = a :: l := ⟨_, _, rfl⟩
  rw [h, pyDedupGo]
  simp

theorem attemptsFor_ne_nil {queries : List PyStr} (h : queries ≠ []) :
    attemptsFor queries ≠ [] := by
  cases queries with
  | nil => exact absurd rfl h
  | cons q rest => simp [attemptsFor]

/-- C7: if every provider call fails (its meta carries a truthy error), the
search returns an empty result list together with a non-empty diagnostics
list in which every entry carries a non-empty error, and it does not raise;
errors never abort the sweep — every attempt is still recorded. -/
theorem c7_all_fail_graceful (fetch : FetchFn) (terms : List PyStr) (maxR : Nat)
    (hf : ∀ q m f, metaErrTruthy (fetch q 100 m f).2 = true) :
    ∃ ds, run_google_only fetch terms maxR = .ok ([], ds) ∧ ds ≠ [] ∧
      ∀ d ∈ ds, ∃ e, d.error = some e ∧ e ≠ [] := by
  refine ⟨(attemptsFor (build_queries terms)).map (fun a => (fetch a.1 100 a.2.1 a.2.2).2),
    ?_, ?_, ?_⟩
  · rw [run_google_only, mergeAttempts_all_errors hf]
    simp
  · have := attemptsFor_ne_nil (build_queries_ne_nil terms)
    simpa using this
  · intro d hd
    rw [List.mem_map] at hd
    obtain ⟨a, _, rfl⟩ := hd
    have ht := hf a.1 a.2.1 a.2.2
    rw [metaErrTruthy] at ht
    cases herr : (fetch a.1 100 a.2.1 a.2.2).2.error with
    | none => rw [herr] at ht; cases ht
    | some e =>
      rw [herr] at ht
      refine ⟨e, rfl, ?_⟩
      intro hnil
      rw [hnil] at ht
      cases ht

/-- C7 witness: with the always-failing stub, `c7_all_fail_graceful` yields an
empty result list and all-error diagnostics at a concrete input. -/
theorem c7_witness :
    ∃ ds, run_google_only fetchFail [("A".data)] 80 = .ok ([], ds) ∧ ds ≠ [] ∧
      ∀ d ∈ ds, ∃ e, d.error = some e ∧ e ≠ [] :=
  c7_all_fail_graceful fetchFail [("A".data)] 80 (fun _ _ _ => rfl)

/-- C9 (amended): when either credential is absent, every
`google_cse_request` returns zero items without consulting the HTTP layer and
without raising, but the condition is reported as an error in the attempt's
meta dict (`Missing GOOGLE_API_KEY or GOOGLE_CSE_ID`); the search then
proceeds, records one such diagnostic per attempt, and returns an empty list. -/
theorem c9_amended_missing_creds (apiKey cseId : PyStr) (http : HttpOracle)
    (h : pyTruthy apiKey = false ∨ pyTruthy cseId = false) :
    (∀ q wanted mode filt, google_cse_request apiKey cseId http q wanted mode filt =
      ([], ⟨none, none, none, none, none, some missingCredsMsg⟩)) ∧
    (∀ terms maxR, ∃ ds, run_google_only
        (fun q wanted mode filt => google_cse_request apiKey cseId http q wanted mode filt)
        terms maxR = .ok ([], ds) ∧ ds ≠ [] ∧
        ∀ d ∈ ds, d = ⟨none, none, none, none, none, some missingCredsMsg⟩) := by
  have hbranch : ∀ q wanted mode filt,
      google_cse_request apiKey cseId http q wanted mode filt =
        ([], ⟨none, none, none, none, none, some missingCredsMsg⟩) := by
    intro q wanted mode filt
    rcases h with h | h <;> simp [google_cse_request, h]
  refine ⟨hbranch, ?_⟩
  intro terms maxR
  have hf : ∀ q m f, metaErrTruthy
      ((fun q wanted mode filt => google_cse_request apiKey cseId http q wanted mode filt)
        q 100 m f).2 = true := by
    intro q m f
    show metaErrTruthy (google_cse_request apiKey cseId http q 100 m f).2 = true
    rw [hbranch q 100 m f]
    rfl
  refine ⟨(attemptsFor (build_queries terms)).map
      (fun a => ((fun q wanted mode filt => google_cse_request apiKey cseId http q wanted mode filt)
        a.1 100 a.2.1 a.2.2).2), ?_, ?_, ?_⟩
  · rw [run_google_only, mergeAttempts_all_errors hf]
    simp
  · have := attemptsFor_ne_nil (build_queries_ne_nil terms)
    simpa using this
  · intro d hd
    rw [List.mem_map] at hd
    obtain ⟨a, _, rfl⟩ := hd
    show (google_cse_request apiKey cseId http a.1 100 a.2.1 a.2.2).2 = _
    rw [hbranch a.1 100 a.2.1 a.2.2]

/-- C9 witness: with an empty API key, `c9_amended_missing_creds` gives the
no-request zero-item error meta at a concrete call. -/
theorem c9_witness :
    pyTruthy ([] : PyStr) = false ∧
    google_cse_request [] ("x".data) httpNever ("q".data) 40 ("siteSearch".data) 1 =
      ([], ⟨none, none, none, none, none, some missingCredsMsg⟩) :=
  ⟨rfl, (c9_amended_missing_creds [] ("x".data) httpNever (Or.inl rfl)).1 _ _ _ _⟩

theorem mem_pyDedupGo {seen l : List PyStr} {q : PyStr} (h : q ∈ pyDedupGo seen l) :
    q ∉ seen := by
  induction l generalizing seen with
  | nil => simp [pyDedupGo] at h
  | cons x l ih =>
    rw [pyDedupGo] at h
    by_cases hs : seen.contains x = true
    · rw [if_pos hs] at h
      exact ih h
    · rw [if_neg hs] at h
      rcases List.mem_cons.mp h with rfl | hm
      · intro hmem
        exact hs (by simpa using hmem)
      · intro hmem
        exact (ih hm) (List.mem_cons_of_mem _ hmem)

theorem pyDedupGo_nodup (seen l : List PyStr) : (pyDedupGo seen l).Nodup := by
  induction l generalizing seen with
  | nil => simp [pyDedupGo]
  | cons x l ih =>
    rw [pyDedupGo]
    by_cases hs : seen.contains x = true
    · rw [if_pos hs]; exact ih seen
    · rw [if_neg hs]
      refine List.Nodup.cons (fun hmem => ?_) (ih (x :: seen))
      exact (mem_pyDedupGo hmem) (List.mem_cons_self x seen)

theorem pyDedupGo_length_le (seen l : List PyStr) : (pyDedupGo seen l).length ≤ l.length := by
  induction l generalizing seen with
  | nil => simp [pyDedupGo]
  | cons x l ih =>
    rw [pyDedupGo]
    by_cases hs : seen.contains x = true
    · rw [if_pos hs]
      exact Nat.le_succ_of_le (ih seen)
    · rw [if_neg hs]
      simpa using ih (x :: seen)

theorem pyDedupGo_eq_self {l : List PyStr} : ∀ seen, l.Nodup → (∀ x ∈ l, x ∉ seen) →
    pyDedupGo seen l = l := by
  induction l with
  | nil => intro seen _ _; rfl
  | cons x l ih =>
    intro seen hnd hdisj
    rw [pyDedupGo]
    have hs : ¬ seen.contains x = true := by
      intro hc
      exact hdisj x (List.mem_cons_self x l) (by simpa using hc)
    rw [if_neg hs]
    congr 1
    refine ih (x :: seen) (List.Nodup.of_cons hnd) ?_
    intro y hy
    rw [List.mem_cons]
    rintro (rfl | hseen)
    · exact (List.nodup_cons.mp hnd).1 hy
    · exact hdisj y (List.mem_cons_of_mem x hy) hseen

theorem pairsComb_length {α : Type} (l : List α) :
    (pairsComb l).length = Nat.choose l.length 2 := by
  induction l with
  | nil => rfl
  | cons x xs ih =>
    rw [pairsComb, List.length_append, List.length_map, ih, List.length_cons,
      Nat.choose_succ_succ' xs.length 1, Nat.choose_one_right]

theorem pyStrip_noop {s : PyStr}
    (hc : ∃ c, s.head? = some c ∧ pyIsSpace c = false)
    (hd : ∃ d, s.getLast? = some d ∧ pyIsSpace d = false) : pyStrip s = s := by
  obtain ⟨c, hch, hcs⟩ := hc
  obtain ⟨d, hdh, hds⟩ := hd
  rw [pyStrip]
  have h1 : s.dropWhile pyIsSpace = s := by
    cases hs : s with
    | nil => rfl
    | cons c0 t =>
      rw [hs] at hch
      injection hch with he
      subst he
      exact List.dropWhile_cons_of_neg (by simp [hcs])
  rw [h1]
  have h2 : s.reverse.dropWhile pyIsSpace = s.reverse := by
    have hhr : s.reverse.head? = some d := by
      rw [List.head?_reverse]; exact hdh
    cases hr : s.reverse with
    | nil => rfl
    | cons rc rt =>
      rw [hr] at hhr
      injection hhr with he
      subst he
      exact List.dropWhile_cons_of_neg (by simp [hds])
  rw [h2, List.reverse_reverse]

theorem pyJoin_quote_getLast (t : List PyStr) (h : t ≠ []) :
    (pyJoin (" ".data) (t.map quoteTerm)).getLast? = some '"' := by
  induction t with
  | nil => exact absurd rfl h
  | cons x rest ih =>
    cases rest with
    | nil =>
      show (quoteTerm x).getLast? = some '"'
      rw [quoteTerm, show '"' :: (x ++ ['"']) = ('"' :: x) ++ ['"'] from rfl]
      exact List.getLast?_concat _
    | cons y rest2 =>
      have hr := ih (by simp)
      have hne : pyJoin (" ".data) ((y :: rest2).map quoteTerm) ≠ [] := by
        intro hnil
        rw [hnil] at hr
        cases hr
      show (quoteTerm x ++ " ".data ++ pyJoin (" ".data) ((y :: rest2).map quoteTerm)).getLast? =
        some '"'
      rw [List.getLast?_append_of_ne_nil _ hne]
      exact hr

theorem pyJoin_quote_ne_nil (t : List PyStr) (h : t ≠ []) :
    pyJoin (" ".data) (t.map quoteTerm) ≠ [] := by
  intro hnil
  have := pyJoin_quote_getLast t h
  rw [hnil] at this
  cases this

/-- When at least one term survives trimming, the three fixed variants are
stripped to themselves (they start with `s` and end with `"`), so `rawQueries`
has a closed form. -/
theorem rawQueries_eq (terms : List PyStr)
    (h : trimmedTerms terms ≠ []) :
    rawQueries terms =
      [("site:".data ++ SPOTIFY_HOST) ++ " inurl:playlist ".data ++
         pyJoin (" ".data) ((trimmedTerms terms).map quoteTerm),
       ("site:".data ++ SPOTIFY_HOST) ++ " intitle:playlist ".data ++
         pyJoin (" ".data) ((trimmedTerms terms).map quoteTerm),
       ("site:".data ++ SPOTIFY_HOST) ++ " ".data ++
         pyJoin (" ".data) ((trimmedTerms terms).map quoteTerm) ++ " \"playlist\"".data] ++
      (if (trimmedTerms terms).length ≥ 3 then
        ((pairsComb (trimmedTerms terms)).take 10).map (fun ab =>
          ("site:".data ++ SPOTIFY_HOST) ++ " inurl:playlist \"".data ++ ab.1 ++ "\" \"".data ++
            ab.2 ++ "\"".data)
       else []) := by
  have hlast := pyJoin_quote_getLast (trimmedTerms terms) h
  have hstrip1 : pyStrip (("site:".data ++ SPOTIFY_HOST) ++ " inurl:playlist ".data ++
      pyJoin (" ".data) ((trimmedTerms terms).map quoteTerm)) =
      ("site:".data ++ SPOTIFY_HOST) ++ " inurl:playlist ".data ++
      pyJoin (" ".data) ((trimmedTerms terms).map quoteTerm) := by
    refine pyStrip_noop ⟨'s', rfl, by decide⟩ ⟨'"', ?_, by decide⟩
    rw [List.getLast?_append_of_ne_nil _ (pyJoin_quote_ne_nil _ h)]
    exact hlast
  have hstrip2 : pyStrip (("site:".data ++ SPOTIFY_HOST) ++ " intitle:playlist ".data ++
      pyJoin (" ".data) ((trimmedTerms terms).map quoteTerm)) =
      ("site:".data ++ SPOTIFY_HOST) ++ " intitle:playlist ".data ++
      pyJoin (" ".data) ((trimmedTerms terms).map quoteTerm) := by
    refine pyStrip_noop ⟨'s', rfl, by decide⟩ ⟨'"', ?_, by decide⟩
    rw [List.getLast?_append_of_ne_nil _ (pyJoin_quote_ne_nil _ h)]
    exact hlast
  have hstrip3 : pyStrip (("site:".data ++ SPOTIFY_HOST) ++ " ".data ++
      pyJoin (" ".data) ((trimmedTerms terms).map quoteTerm) ++ " \"playlist\"".data) =
      ("site:".data ++ SPOTIFY_HOST) ++ " ".data ++
      pyJoin (" ".data) ((trimmedTerms terms).map quoteTerm) ++ " \"playlist\"".data := by
    refine pyStrip_noop ⟨'s', rfl, by decide⟩ ⟨'"', ?_, by decide⟩
    rw [List.getLast?_append_of_ne_nil _ (by decide : " \"playlist\"".data ≠ [])]
    decide
  simp only [rawQueries]
  rw [hstrip1, hstrip2, hstrip3]

/-- C8 (amended): `build_queries` is a pure function of the trimmed term list;
its output is always duplicate-free with first occurrences kept in order;
for 1 or 2 surviving terms it has exactly 3 queries, and for n >= 3 surviving
terms it has at most `3 + min(C(n,2),10)` queries (exactly that many only when
the generated variant strings happen to be pairwise distinct). -/
theorem c8_amended_counts (terms : List PyStr) :
    (build_queries terms).Nodup ∧
    (1 ≤ (trimmedTerms terms).length → (trimmedTerms terms).length ≤ 2 →
      (build_queries terms).length = 3) ∧
    (3 ≤ (trimmedTerms terms).length →
      (build_queries terms).length ≤ 3 + min (Nat.choose (trimmedTerms terms).length 2) 10) := by
  have e1 : ∀ qb : PyStr,
      ((("site:".data ++ SPOTIFY_HOST) ++ " inurl:playlist ".data ++ qb) : PyStr).length =
        37 + qb.length := by
    intro qb
    rw [List.length_append, List.length_append]
    have ha : (("site:".data ++ SPOTIFY_HOST : PyStr)).length = 21 := by decide
    have hb : ((" inurl:playlist ".data : PyStr)).length = 16 := by decide
    omega
  have e2 : ∀ qb : PyStr,
      ((("site:".data ++ SPOTIFY_HOST) ++ " intitle:playlist ".data ++ qb) : PyStr).length =
        39 + qb.length := by
    intro qb
    rw [List.length_append, List.length_append]
    have ha : (("site:".data ++ SPOTIFY_HOST : PyStr)).length = 21 := by decide
    have hb : ((" intitle:playlist ".data : PyStr)).length = 18 := by decide
    omega
  have e3 : ∀ qb : PyStr,
      ((("site:".data ++ SPOTIFY_HOST) ++ " ".data ++ qb ++ " \"playlist\"".data) : PyStr).length =
        33 + qb.length := by
    intro qb
    rw [List.length_append, List.length_append, List.length_append]
    have ha : (("site:".data ++ SPOTIFY_HOST : PyStr)).length = 21 := by decide
    have hb : ((" ".data : PyStr)).length = 1 := by decide
    have hc : ((" \"playlist\"".data : PyStr)).length = 11 := by decide
    omega
  refine ⟨pyDedupGo_nodup _ _, ?_, ?_⟩
  · intro h1 h2
    have hne : trimmedTerms terms ≠ [] := by
      intro hnil
      rw [hnil] at h1
      simp at h1
    have h3 := rawQueries_eq terms hne
    rw [if_neg (by omega), List.append_nil] at h3
    have hne12 : (("site:".data ++ SPOTIFY_HOST) ++ " inurl:playlist ".data ++
        pyJoin (" ".data) ((trimmedTerms terms).map quoteTerm)) ≠
        (("site:".data ++ SPOTIFY_HOST) ++ " intitle:playlist ".data ++
        pyJoin (" ".data) ((trimmedTerms terms).map quoteTerm)) := by
      intro he
      have := congrArg List.length he
      rw [e1, e2] at this
      omega
    have hne13 : (("site:".data ++ SPOTIFY_HOST) ++ " inurl:playlist ".data ++
        pyJoin (" ".data) ((trimmedTerms terms).map quoteTerm)) ≠
        (("site:".data ++ SPOTIFY_HOST) ++ " ".data ++
        pyJoin (" ".data) ((trimmedTerms terms).map quoteTerm) ++ " \"playlist\"".data) := by
      intro he
      have := congrArg List.length he
      rw [e1, e3] at this
      omega
    have hne23 : (("site:".data ++ SPOTIFY_HOST) ++ " intitle:playlist ".data ++
        pyJoin (" ".data) ((trimmedTerms terms).map quoteTerm)) ≠
        (("site:".data ++ SPOTIFY_HOST) ++ " ".data ++
        pyJoin (" ".data) ((trimmedTerms terms).map quoteTerm) ++ " \"playlist\"".data) := by
      intro he
      have := congrArg List.length he
      rw [e2, e3] at this
      omega
    have hnodup : ([("site:".data ++ SPOTIFY_HOST) ++ " inurl:playlist ".data ++
        pyJoin (" ".data) ((trimmedTerms terms).map quoteTerm),
        ("site:".data ++ SPOTIFY_HOST) ++ " intitle:playlist ".data ++
        pyJoin (" ".data) ((trimmedTerms terms).map quoteTerm),
        ("site:".data ++ SPOTIFY_HOST) ++ " ".data ++
        pyJoin (" ".data) ((trimmedTerms terms).map quoteTerm) ++ " \"playlist\"".data] :
        List PyStr).Nodup := by
      refine List.Nodup.cons ?_ (List.Nodup.cons ?_ (List.nodup_singleton _))
      · intro hmem
        rcases List.mem_cons.mp hmem with he | hmem2
        · exact hne12 he
        · rcases List.mem_cons.mp hmem2 with he | h0
          · exact hne13 he
          · cases h0
      · intro hmem
        rcases List.mem_cons.mp hmem with he | h0
        · exact hne23 he
        · cases h0
    show (pyDedupGo [] (rawQueries terms)).length = 3
    rw [h3, pyDedupGo_eq_self [] hnodup (by simp)]
    rfl
  · intro h3len
    have hne : trimmedTerms terms ≠ [] := by
      intro hnil
      rw [hnil] at h3len
      simp at h3len
    have h3 := rawQueries_eq terms hne
    rw [if_pos (by omega)] at h3
    have hlen : (rawQueries terms).length =
        3 + min (Nat.choose (trimmedTerms terms).length 2) 10 := by
      rw [h3, List.length_append, List.length_map, List.length_take, pairsComb_length]
      simp only [List.length_cons, List.length_nil]
      omega
    calc (build_queries terms).length ≤ (rawQueries terms).length := pyDedupGo_length_le _ _
      _ = _ := hlen

/-- C8 witness: for the two-term list `["Kanye","Runaway"]`,
`c8_amended_counts` gives exactly 3 queries. -/
theorem c8_witness :
    1 ≤ (trimmedTerms [("Kanye".data), ("Runaway".data)]).length ∧
    (trimmedTerms [("Kanye".data), ("Runaway".data)]).length ≤ 2 ∧
    (build_queries [("Kanye".data), ("Runaway".data)]).length = 3 :=
  ⟨by decide, by decide,
    (c8_amended_counts [("Kanye".data), ("Runaway".data)]).2.1 (by decide) (by decide)⟩

theorem splitOnFirstChar_fst_isPre {sep : Char} {s a b : PyStr}
    (h : splitOnFirstChar sep s = some (a, b)) : a <+: s := by
  obtain ⟨hs, -⟩ := splitOnFirstChar_some_spec h
  exact ⟨sep :: b, hs.symm⟩

theorem split_fst_head {sep : Char} {c : Char} {t a b : PyStr}
    (h : splitOnFirstChar sep (c :: t) = some (a, b)) :
    a = [] ∨ ∃ t2, a = c :: t2 := by
  obtain ⟨hs, -⟩ := splitOnFirstChar_some_spec h
  cases a with
  | nil => exact Or.inl rfl
  | cons a0 as =>
    right
    refine ⟨as, ?_⟩
    rw [List.cons_append] at hs
    injection hs with h1 _
    rw [h1]

theorem dropWhile_head_prop {α : Type} (p : α → Bool) (l : List α) :
    l.dropWhile p = [] ∨ ∃ c t, l.dropWhile p = c :: t ∧ p c = false := by
  induction l with
  | nil => exact Or.inl rfl
  | cons a l ih =>
    by_cases hp : p a = true
    · rw [List.dropWhile_cons_of_pos hp]
      exact ih
    · rw [List.dropWhile_cons_of_neg hp]
      exact Or.inr ⟨a, l, rfl, by simpa using hp⟩

theorem dropWhile_idem {α : Type} (p : α → Bool) (l : List α) :
    (l.dropWhile p).dropWhile p = l.dropWhile p := by
  rcases dropWhile_head_prop p l with h | ⟨c, t, h, hc⟩
  · rw [h]; rfl
  · rw [h]
    exact List.dropWhile_cons_of_neg (by simp [hc])

theorem pyRstripSlash_isPre (s : PyStr) : pyRstripSlash s <+: s := by
  rw [pyRstripSlash]
  have h := List.dropWhile_suffix (l := s.reverse) (fun c => c = '/')
  rw [← List.reverse_reverse s]
  exact reverse_isPre_reverse.mpr (by simpa using h)

theorem pyRstripSlash_idem (s : PyStr) : pyRstripSlash (pyRstripSlash s) = pyRstripSlash s := by
  rw [pyRstripSlash, pyRstripSlash, List.reverse_reverse, dropWhile_idem]

theorem prefix_head_shape {s t : PyStr} {c : Char} (hpre : s <+: c :: t) :
    s = [] ∨ ∃ t2, s = c :: t2 := by
  cases s with
  | nil => exact Or.inl rfl
  | cons s0 st =>
    right
    obtain ⟨r, hr⟩ := hpre
    rw [List.cons_append] at hr
    injection hr with h1 _
    exact ⟨st, by rw [h1]⟩

theorem embed_drop6 {path : PyStr} (h : ("/embed/".data).isPrefixOf path = true) :
    pyReplaceFirst ("/embed".data) [] path = path.drop 6 ∧ ∃ r, path.drop 6 = '/' :: r := by
  obtain ⟨r, hr⟩ := isPrefixOf_iff_pre.mp h
  have h6 : ("/embed".data).isPrefixOf path = true := by
    rw [isPrefixOf_iff_pre]
    exact List.IsPrefix.trans ⟨['/'], rfl⟩ (isPrefixOf_iff_pre.mp h)
  constructor
  · rw [pyReplaceFirst_of_isPrefixOf h6]
    rfl
  · refine ⟨path.drop 7, ?_⟩
    rw [← hr]
    rfl

theorem takeWhile_ne_eq_self {s : PyStr} {ch : Char} (h : ch ∉ s) :
    s.takeWhile (fun c => c ≠ ch) = s := by
  induction s with
  | nil => rfl
  | cons c cs ih =>
    have hc : c ≠ ch := by
      intro he
      exact h (he ▸ List.mem_cons_self c cs)
    rw [List.takeWhile_cons_of_pos (by simpa using hc)]
    rw [ih (fun hm => h (List.mem_cons_of_mem c hm))]

theorem netloc_ne_nil_of_hasSub {netloc : PyStr}
    (h : listHasSub SPOTIFY_HOST netloc = true) : netloc ≠ [] := by
  intro h0
  rw [h0] at h
  exact absurd h (by decide)

theorem splitParams_fst_isPre (url : PyStr) : (splitParams url).1 <+: url := by
  rw [splitParams]
  by_cases hc : url.contains '/' = true
  · rw [if_pos hc]
    cases hr : rfindChar '/' url with
    | none => exact List.prefix_refl _
    | some k =>
      show (match findCharFrom ';' url k with
        | none => (url, ([] : PyStr))
        | some i => (url.take i, url.drop (i + 1))).1 <+: url
      cases hf : findCharFrom ';' url k with
      | none => exact List.prefix_refl url
      | some i => exact take_isPre i url
  · rw [if_neg hc]
    cases hs : splitOnFirstChar ';' url with
    | none => exact List.prefix_refl _
    | some ab =>
      obtain ⟨a, b⟩ := ab
      exact splitOnFirstChar_fst_isPre hs

theorem path_from_splits {X a path : PyStr}
    (h1 : a <+: X) (h2 : '#' ∉ a) (h3 : path <+: a) (h4 : '?' ∉ path) :
    ('#' ∉ path) ∧ ('?' ∉ path) ∧ path <+: X :=
  ⟨fun hm => h2 (h3.sublist.subset hm), h4, h3.trans h1⟩

theorem after_head_prop (X : PyStr) :
    X.dropWhile (fun c => !isNetlocDelim c) = [] ∨
    ∃ c t, X.dropWhile (fun c => !isNetlocDelim c) = c :: t ∧ isNetlocDelim c = true := by
  rcases dropWhile_head_prop (fun c => !isNetlocDelim c) X with h | ⟨c, t, h, hc⟩
  · exact Or.inl h
  · refine Or.inr ⟨c, t, h, ?_⟩
    simpa using hc

theorem path_head_from_after {after path : PyStr}
    (hpre : path <+: after)
    (hhd : after = [] ∨ ∃ c t, after = c :: t ∧ isNetlocDelim c = true)
    (h2 : '#' ∉ path) (h3 : '?' ∉ path) :
    path = [] ∨ ∃ t2, path = '/' :: t2 := by
  rcases hhd with rfl | ⟨c, t, rfl, hc⟩
  · exact Or.inl (List.prefix_nil.mp hpre)
  · rcases prefix_head_shape hpre with hnil | ⟨t2, hsh⟩
    · exact Or.inl hnil
    · have hcs : (c = '/' ∨ c = '?') ∨ c = '#' := by
        simpa [isNetlocDelim] using hc
      rcases hcs with (rfl | rfl) | rfl
      · exact Or.inr ⟨t2, hsh⟩
      · exact absurd (by rw [hsh]; exact List.mem_cons_self _ _) h3
      · exact absurd (by rw [hsh]; exact List.mem_cons_self _ _) h2

theorem urlsplitE_path_props {u : PyStr} {p : UrlParts} (h : urlsplitE u = .ok p) :
    ('#' ∉ p.path) ∧ ('?' ∉ p.path) ∧ (∀ c ∈ p.path, isUnsafeUrlByte c = false) ∧
    (p.netloc ≠ [] → p.path = [] ∨ ∃ t2, p.path = '/' :: t2) := by
  have hcleanU : ∀ c ∈ removeUnsafeBytes (pyLStripC0 u), isUnsafeUrlByte c = false := by
    intro c hc
    rw [removeUnsafeBytes] at hc
    have := List.of_mem_filter hc
    simpa using this
  have hXU : ∀ c ∈ (splitScheme (removeUnsafeBytes (pyLStripC0 u))).2,
      c ∈ removeUnsafeBytes (pyLStripC0 u) := by
    rw [splitScheme]
    cases hsp : splitOnFirstChar ':' (removeUnsafeBytes (pyLStripC0 u)) with
    | none => intro c hc; exact hc
    | some ab =>
      obtain ⟨pre, post⟩ := ab
      obtain ⟨hs, -⟩ := splitOnFirstChar_some_spec hsp
      intro c hc
      have hc2 : c ∈ (if (!pre.isEmpty && pre.all isSchemeChar) = true
          then (pre.map Char.toLower, post)
          else (([] : PyStr), removeUnsafeBytes (pyLStripC0 u))).2 := hc
      by_cases hcnd : (!pre.isEmpty && pre.all isSchemeChar) = true
      · rw [if_pos hcnd] at hc2
        rw [hs]
        exact List.mem_append.mpr (Or.inr (List.mem_cons_of_mem _ hc2))
      · rw [if_neg hcnd] at hc2
        exact hc2
  simp only [urlsplitE] at h
  by_cases hif :
      ((splitScheme (removeUnsafeBytes (pyLStripC0 u))).2.take 2 = ['/', '/'])
  · rw [if_pos hif] at h
    by_cases hbr :
        ((((splitScheme (removeUnsafeBytes (pyLStripC0 u))).2.drop 2).takeWhile
            (fun c => !isNetlocDelim c)).contains '[' &&
          !(((splitScheme (removeUnsafeBytes (pyLStripC0 u))).2.drop 2).takeWhile
            (fun c => !isNetlocDelim c)).contains ']' ||
         (((splitScheme (removeUnsafeBytes (pyLStripC0 u))).2.drop 2).takeWhile
            (fun c => !isNetlocDelim c)).contains ']' &&
          !(((splitScheme (removeUnsafeBytes (pyLStripC0 u))).2.drop 2).takeWhile
            (fun c => !isNetlocDelim c)).contains '[') = true
    · rw [if_pos hbr] at h
      exact Except.noConfusion h
    · rw [if_neg hbr] at h
      have hAhd := after_head_prop ((splitScheme (removeUnsafeBytes (pyLStripC0 u))).2.drop 2)
      have hASub : ∀ c ∈ ((splitScheme (removeUnsafeBytes (pyLStripC0 u))).2.drop 2).dropWhile
          (fun c => !isNetlocDelim c), c ∈ removeUnsafeBytes (pyLStripC0 u) := by
        intro c hc
        exact hXU c ((List.drop_suffix 2 _).sublist.subset
          ((List.dropWhile_suffix _).sublist.subset hc))
      cases hfp : splitOnFirstChar '#'
          (((splitScheme (removeUnsafeBytes (pyLStripC0 u))).2.drop 2).dropWhile
            (fun c => !isNetlocDelim c)) with
      | none =>
        have hf1 : (((splitScheme (removeUnsafeBytes (pyLStripC0 u))).2.drop 2).dropWhile
            (fun c => !isNetlocDelim c)) <+:
            (((splitScheme (removeUnsafeBytes (pyLStripC0 u))).2.drop 2).dropWhile
            (fun c => !isNetlocDelim c)) := List.prefix_refl _
        have hf2 := splitOnFirstChar_none_iff.mp hfp
        simp only [hfp] at h
        cases hqp : splitOnFirstChar '?'
            (((splitScheme (removeUnsafeBytes (pyLStripC0 u))).2.drop 2).dropWhile
              (fun c => !isNetlocDelim c)) with
        | none =>
          simp only [hqp] at h
          injection h with h2
          subst h2
          obtain ⟨g1, g2, g3⟩ := path_from_splits hf1 hf2 (List.prefix_refl _)
            (splitOnFirstChar_none_iff.mp hqp)
          exact ⟨g1, g2, fun c hc => hcleanU c (hASub c (g3.sublist.subset hc)),
            fun _ => path_head_from_after g3 hAhd g1 g2⟩
        | some ab2 =>
          obtain ⟨a2, b2⟩ := ab2
          simp only [hqp] at h
          injection h with h2
          subst h2
          obtain ⟨g1, g2, g3⟩ := path_from_splits hf1 hf2
            (splitOnFirstChar_fst_isPre hqp) (splitOnFirstChar_some_spec hqp).2
          exact ⟨g1, g2, fun c hc => hcleanU c (hASub c (g3.sublist.subset hc)),
            fun _ => path_head_from_after g3 hAhd g1 g2⟩
      | some ab =>
        obtain ⟨a, b⟩ := ab
        have hf1 := splitOnFirstChar_fst_isPre hfp
        have hf2 := (splitOnFirstChar_some_spec hfp).2
        simp only [hfp] at h
        cases hqp : splitOnFirstChar '?' a with
        | none =>
          simp only [hqp] at h
          injection h with h2
          subst h2
          obtain ⟨g1, g2, g3⟩ := path_from_splits hf1 hf2 (List.prefix_refl _)
            (splitOnFirstChar_none_iff.mp hqp)
          exact ⟨g1, g2, fun c hc => hcleanU c (hASub c (g3.sublist.subset hc)),
            fun _ => path_head_from_after g3 hAhd g1 g2⟩
        | some ab2 =>
          obtain ⟨a2, b2⟩ := ab2
          simp only [hqp] at h
          injection h with h2
          subst h2
          obtain ⟨g1, g2, g3⟩ := path_from_splits hf1 hf2
            (splitOnFirstChar_fst_isPre hqp) (splitOnFirstChar_some_spec hqp).2
          exact ⟨g1, g2, fun c hc => hcleanU c (hASub c (g3.sublist.subset hc)),
            fun _ => path_head_from_after g3 hAhd g1 g2⟩
  · rw [if_neg hif] at h
    have hXSub := hXU
    cases hfp : splitOnFirstChar '#'
        (splitScheme (removeUnsafeBytes (pyLStripC0 u))).2 with
    | none =>
      have hf2 := splitOnFirstChar_none_iff.mp hfp
      simp only [hfp] at h
      cases hqp : splitOnFirstChar '?'
          (splitScheme (removeUnsafeBytes (pyLStripC0 u))).2 with
      | none =>
        simp only [hqp] at h
        injection h with h2
        subst h2
        obtain ⟨g1, g2, g3⟩ := path_from_splits (List.prefix_refl _) hf2 (List.prefix_refl _)
          (splitOnFirstChar_none_iff.mp hqp)
        exact ⟨g1, g2, fun c hc => hcleanU c (hXSub c (g3.sublist.subset hc)),
          fun hnl => absurd rfl hnl⟩
      | some ab2 =>
        obtain ⟨a2, b2⟩ := ab2
        simp only [hqp] at h
        injection h with h2
        subst h2
        obtain ⟨g1, g2, g3⟩ := path_from_splits (List.prefix_refl _) hf2
          (splitOnFirstChar_fst_isPre hqp) (splitOnFirstChar_some_spec hqp).2
        exact ⟨g1, g2, fun c hc => hcleanU c (hXSub c (g3.sublist.subset hc)),
          fun hnl => absurd rfl hnl⟩
    | some ab =>
      obtain ⟨a, b⟩ := ab
      have hf1 := splitOnFirstChar_fst_isPre hfp
      have hf2 := (splitOnFirstChar_some_spec hfp).2
      simp only [hfp] at h
      cases hqp : splitOnFirstChar '?' a with
      | none =>
        simp only [hqp] at h
        injection h with h2
        subst h2
        obtain ⟨g1, g2, g3⟩ := path_from_splits hf1 hf2 (List.prefix_refl _)
          (splitOnFirstChar_none_iff.mp hqp)
        exact ⟨g1, g2, fun c hc => hcleanU c (hXSub c (g3.sublist.subset hc)),
          fun hnl => absurd rfl hnl⟩
      | some ab2 =>
        obtain ⟨a2, b2⟩ := ab2
        simp only [hqp] at h
        injection h with h2
        subst h2
        obtain ⟨g1, g2, g3⟩ := path_from_splits hf1 hf2
          (splitOnFirstChar_fst_isPre hqp) (splitOnFirstChar_some_spec hqp).2
        exact ⟨g1, g2, fun c hc => hcleanU c (hXSub c (g3.sublist.subset hc)),
          fun hnl => absurd rfl hnl⟩

theorem urlparseE_props {u : PyStr} {p : UrlParts} (h : urlparseE u = .ok p) :
    ∃ q : UrlParts, urlsplitE u = .ok q ∧ p.scheme = q.scheme ∧ p.netloc = q.netloc ∧
      p.path <+: q.path := by
  rw [urlparseE] at h
  cases hs : urlsplitE u with
  | error e => rw [hs] at h; exact Except.noConfusion h
  | ok q =>
    simp only [hs] at h
    by_cases hc : (usesParams.contains q.scheme && q.path.contains ';') = true
    · rw [if_pos hc] at h
      injection h with h2
      subst h2
      exact ⟨q, rfl, rfl, rfl, splitParams_fst_isPre q.path⟩
    · rw [if_neg hc] at h
      injection h with h2
      subst h2
      exact ⟨q, rfl, rfl, rfl, List.prefix_refl _⟩

theorem urlparseE_path_clean {u : PyStr} {p : UrlParts} (h : urlparseE u = .ok p) :
    ('#' ∉ p.path) ∧ ('?' ∉ p.path) ∧ (∀ c ∈ p.path, isUnsafeUrlByte c = false) ∧
    (p.netloc ≠ [] → p.path = [] ∨ ∃ t2, p.path = '/' :: t2) := by
  obtain ⟨q, hq, _, hnet, hpre⟩ := urlparseE_props h
  obtain ⟨h1, h2, h3, h4⟩ := urlsplitE_path_props hq
  have hsub := hpre.sublist.subset
  refine ⟨fun hc => h1 (hsub hc), fun hc => h2 (hsub hc), fun c hc => h3 c (hsub hc), ?_⟩
  intro hnl
  rw [hnet] at hnl
  rcases h4 hnl with hnil | ⟨t, ht⟩
  · rw [hnil] at hpre
    exact Or.inl (List.prefix_nil.mp hpre)
  · rw [ht] at hpre
    exact path_head_from_after hpre (Or.inr ⟨'/', t, rfl, by decide⟩)
      (fun hc => h1 (hsub hc)) (fun hc => h2 (hsub hc))

/-- Re-parsing a canonical output: `urlsplit` of `https://open.spotify.com`
followed by a clean path gives back exactly those components. -/
theorem urlsplitE_spotify_concat (p2 : PyStr)
    (hstart : p2 = [] ∨ ∃ t, p2 = '/' :: t)
    (hq : '?' ∉ p2) (hh : '#' ∉ p2) (hu : ∀ c ∈ p2, isUnsafeUrlByte c = false) :
    urlsplitE ("https://open.spotify.com".data ++ p2) =
      .ok ⟨"https".data, "open.spotify.com".data, p2, [], [], []⟩ := by
  rcases hstart with rfl | ⟨t, rfl⟩
  · decide
  · have hfq : '#' ∉ ('/' :: t) := hh
    have hqq : '?' ∉ ('/' :: t) := hq
    have e1 : removeUnsafeBytes (pyLStripC0 ("https://open.spotify.com".data ++ ('/' :: t))) =
        "https://open.spotify.com".data ++ ('/' :: t) := by
      have e0 : pyLStripC0 ("https://open.spotify.com".data ++ ('/' :: t)) =
          "https://open.spotify.com".data ++ ('/' :: t) := rfl
      rw [e0, removeUnsafeBytes, List.filter_append]
      have ha : ("https://open.spotify.com".data).filter (fun c => !isUnsafeUrlByte c) =
          "https://open.spotify.com".data := by decide
      have hb : ('/' :: t).filter (fun c => !isUnsafeUrlByte c) = '/' :: t := by
        rw [List.filter_eq_self]
        intro a ha2
        simpa using hu a ha2
      rw [ha, hb]
    have e2 : splitScheme ("https://open.spotify.com".data ++ ('/' :: t)) =
        ("https".data, "//open.spotify.com".data ++ ('/' :: t)) := rfl
    have hfp : splitOnFirstChar '#' ('/' :: t) = none := splitOnFirstChar_none_iff.mpr hfq
    have hqp : splitOnFirstChar '?' ('/' :: t) = none := splitOnFirstChar_none_iff.mpr hqq
    simp only [urlsplitE, e1, e2]
    have e3 : (("https".data, "//open.spotify.com".data ++ ('/' :: t)) : PyStr × PyStr).2.take 2 =
        ['/', '/'] := rfl
    rw [if_pos e3]
    have e4 : ((("https".data, "//open.spotify.com".data ++ ('/' :: t)) :
        PyStr × PyStr).2.drop 2).takeWhile (fun c => !isNetlocDelim c) =
        "open.spotify.com".data := rfl
    have e5 : ((("https".data, "//open.spotify.com".data ++ ('/' :: t)) :
        PyStr × PyStr).2.drop 2).dropWhile (fun c => !isNetlocDelim c) = '/' :: t := rfl
    rw [e4, e5]
    rw [if_neg (by decide)]
    simp only [hfp, hqp]

/-- Re-parsing a canonical output through `urlparse`: when the path either
contains no `;` or `_splitparams` leaves it unchanged, the components survive. -/
theorem urlparseE_spotify_concat (p2 : PyStr)
    (hstart : p2 = [] ∨ ∃ t, p2 = '/' :: t)
    (hq : '?' ∉ p2) (hh : '#' ∉ p2) (hu : ∀ c ∈ p2, isUnsafeUrlByte c = false)
    (hsemi : p2.contains ';' = false ∨ splitParams p2 = (p2, [])) :
    urlparseE ("https://open.spotify.com".data ++ p2) =
      .ok ⟨"https".data, "open.spotify.com".data, p2, [], [], []⟩ := by
  simp only [urlparseE, urlsplitE_spotify_concat p2 hstart hq hh hu]
  rcases hsemi with hs | hs
  · have hnotin : ';' ∉ p2 := by simpa using hs
    rw [if_neg (by simp [hnotin])]
  · by_cases hc : p2.contains ';' = true
    · rw [if_pos (by rw [hc]; decide)]
      simp only [hs]
    · have hb : p2.contains ';' = false := by
        cases hcb : p2.contains ';'
        · rfl
        · exact absurd hcb hc
      have hnotin : ';' ∉ p2 := by simpa using hb
      rw [if_neg (by simp [hnotin])]

theorem https_host_concat (X : PyStr) :
    "https://".data ++ SPOTIFY_HOST ++ X = "https://open.spotify.com".data ++ X := rfl

theorem canon_path_props {u : PyStr} {p : UrlParts} {p2 : PyStr}
    (hn : urlparseE (normalize_url u) = .ok p)
    (hhost : listHasSub SPOTIFY_HOST p.netloc = true)
    (hp2 : p2 = pyRstripSlash (if ("/embed/".data).isPrefixOf p.path then
        pyReplaceFirst ("/embed".data) [] p.path else p.path)) :
    (p2 = [] ∨ ∃ t, p2 = '/' :: t) ∧ ('?' ∉ p2) ∧ ('#' ∉ p2) ∧
      (∀ c ∈ p2, isUnsafeUrlByte c = false) := by
  obtain ⟨h1, h2, h3, h4⟩ := urlparseE_path_clean hn
  have hnl : p.netloc ≠ [] := netloc_ne_nil_of_hasSub hhost
  have hshape := h4 hnl
  by_cases hemb : ("/embed/".data).isPrefixOf p.path = true
  · obtain ⟨hrep, r, hdrop⟩ := embed_drop6 hemb
    rw [if_pos hemb, hrep, hdrop] at hp2
    have hsixsub : ∀ c ∈ ('/' :: r), c ∈ p.path := by
      intro c hc
      have hcm : c ∈ p.path.drop 6 := by rw [hdrop]; exact hc
      exact (List.drop_suffix 6 p.path).sublist.subset hcm
    have hpre := pyRstripSlash_isPre ('/' :: r)
    rw [← hp2] at hpre
    refine ⟨prefix_head_shape hpre, ?_, ?_, ?_⟩
    · intro hc; exact h2 (hsixsub _ (hpre.sublist.subset hc))
    · intro hc; exact h1 (hsixsub _ (hpre.sublist.subset hc))
    · intro c hc; exact h3 c (hsixsub _ (hpre.sublist.subset hc))
  · rw [if_neg hemb] at hp2
    have hpre := pyRstripSlash_isPre p.path
    rw [← hp2] at hpre
    refine ⟨?_, ?_, ?_, ?_⟩
    · rcases hshape with hnil | ⟨t, ht⟩
      · rw [hnil] at hpre
        exact Or.inl (List.prefix_nil.mp hpre)
      · rw [ht] at hpre
        exact prefix_head_shape hpre
    · intro hc; exact h2 (hpre.sublist.subset hc)
    · intro hc; exact h1 (hpre.sublist.subset hc)
    · intro c hc; exact h3 c (hpre.sublist.subset hc)

/-- C3 (amended): canonicalization is idempotent for every input whose
redirector unwrap is itself stable (`normalize_url` applied twice equals once)
and which satisfies `canonIdemGuard` (when the unwrapped URL is a Spotify-host
URL, the canonical path neither still begins with `/embed/` nor loses a
`;params` suffix on re-parse). -/
theorem c3_amended_idempotent (u : PyStr)
    (h1 : normalize_url (normalize_url u) = normalize_url u)
    (h2 : canonIdemGuard u = true) :
    canonical_spotify_url (canonical_spotify_url u) = canonical_spotify_url u := by
  cases hn : urlparseE (normalize_url u) with
  | error e =>
    have hcu : canonical_spotify_url u = normalize_url u := by
      simp only [canonical_spotify_url, hn]
    rw [hcu]
    simp only [canonical_spotify_url, h1, hn]
  | ok p =>
    by_cases hhost : listHasSub SPOTIFY_HOST p.netloc = true
    · set p2 := pyRstripSlash (if ("/embed/".data).isPrefixOf p.path then
        pyReplaceFirst ("/embed".data) [] p.path else p.path) with hp2def
      have hcu : canonical_spotify_url u = "https://open.spotify.com".data ++ p2 := by
        simp only [canonical_spotify_url, hn]
        rw [if_pos hhost]
        exact https_host_concat _
      have hg : (!(("/embed/".data).isPrefixOf p2) &&
          (!p2.contains ';' || decide (splitParams p2 = (p2, ([] : PyStr))))) = true := by
        have hgg := h2
        simp only [canonIdemGuard, hn] at hgg
        rwa [if_pos hhost] at hgg
      rw [Bool.and_eq_true] at hg
      obtain ⟨hg1, hg2⟩ := hg
      obtain ⟨hps, hpq, hph, hpu⟩ := canon_path_props hn hhost hp2def
      have hsemi : p2.contains ';' = false ∨ splitParams p2 = (p2, []) := by
        rw [Bool.or_eq_true] at hg2
        rcases hg2 with ha | hb
        · left; simpa using ha
        · right; exact of_decide_eq_true hb
      have hparse2 := urlparseE_spotify_concat p2 hps hpq hph hpu hsemi
      have hnormc : normalize_url ("https://open.spotify.com".data ++ p2) =
          "https://open.spotify.com".data ++ p2 := by
        rw [normalize_url]
        have hne : ("https://open.spotify.com".data ++ p2).isEmpty = false := rfl
        rw [if_neg (by rw [hne]; exact Bool.false_ne_true)]
        simp only [hparse2]
        have hcond : ¬ ((("google.com".data).isSuffixOf ("open.spotify.com".data) &&
            ("/url".data).isPrefixOf p2) = true) := by
          intro hc
          rw [Bool.and_eq_true] at hc
          exact absurd hc.1 (by decide)
        rw [if_neg hcond]
      have hcEq : canonical_spotify_url ("https://open.spotify.com".data ++ p2) =
          "https://open.spotify.com".data ++ p2 := by
        simp only [canonical_spotify_url, hnormc, hparse2]
        rw [if_pos (by decide : listHasSub SPOTIFY_HOST ("open.spotify.com".data) = true)]
        have hg1f : ("/embed/".data).isPrefixOf p2 = false := by simpa using hg1
        rw [if_neg (by rw [hg1f]; exact Bool.false_ne_true)]
        rw [pyRstripSlash_idem]
        exact https_host_concat _
      rw [hcu]
      exact hcEq
    · have hcu : canonical_spotify_url u = normalize_url u := by
        simp only [canonical_spotify_url, hn]
        rw [if_neg hhost]
      rw [hcu]
      simp only [canonical_spotify_url, h1, hn]
      rw [if_neg hhost]

/-- C3 witness: `c3_amended_idempotent` applied to a concrete embed URL with a
query string, whose guard conditions hold by computation. -/
theorem c3_witness :
    normalize_url (normalize_url ("https://open.spotify.com/embed/playlist/ABC?x=1".data)) =
      normalize_url ("https://open.spotify.com/embed/playlist/ABC?x=1".data) ∧
    canonIdemGuard ("https://open.spotify.com/embed/playlist/ABC?x=1".data) = true ∧
    canonical_spotify_url (canonical_spotify_url
      ("https://open.spotify.com/embed/playlist/ABC?x=1".data)) =
    canonical_spotify_url ("https://open.spotify.com/embed/playlist/ABC?x=1".data) :=
  ⟨by decide, by decide, c3_amended_idempotent _ (by decide) (by decide)⟩

/-- C10: host matching is by substring.  Any URL whose parsed host merely
contains `open.spotify.com` (and which is not a Google redirector, has no
leading `/embed/`, no trailing slash, no `;` in the path, and a path containing
`/playlist`) is rewritten by `canonical_spotify_url` to a URL whose host is
exactly `open.spotify.com` with the original path kept, and a record bearing
it passes the result filter's gates, appearing in the output as a seemingly
genuine Spotify playlist link. -/
theorem c10_substring_host_rewrite (u : PyStr) (p : UrlParts)
    (hp : urlparseE u = .ok p)
    (hng : (("google.com".data).isSuffixOf p.netloc && ("/url".data).isPrefixOf p.path) = false)
    (hhost : listHasSub SPOTIFY_HOST p.netloc = true)
    (hemb : ("/embed/".data).isPrefixOf p.path = false)
    (hslash : pyRstripSlash p.path = p.path)
    (hsemi : p.path.contains ';' = false)
    (htok : listHasSub PLAYLIST_TOKEN p.path = true) :
    canonical_spotify_url u = "https://open.spotify.com".data ++ p.path ∧
    only_playlist_results [⟨some u, none, none, none, none, none, none⟩] =
      .ok [⟨"https://open.spotify.com".data ++ p.path,
            "https://open.spotify.com".data ++ p.path, []⟩] := by
  have hnl : p.netloc ≠ [] := netloc_ne_nil_of_hasSub hhost
  have hune : u ≠ [] := by
    intro h0
    rw [h0] at hp
    rw [(by decide : urlparseE ([] : PyStr) = .ok ⟨[], [], [], [], [], []⟩)] at hp
    injection hp with h2
    rw [← h2] at hnl
    exact hnl rfl
  have hie : u.isEmpty = false := by
    cases u with
    | nil => exact absurd rfl hune
    | cons c cs => rfl
  have hnorm : normalize_url u = u := by
    rw [normalize_url]
    rw [if_neg (by rw [hie]; exact Bool.false_ne_true)]
    simp only [hp]
    rw [if_neg (by rw [hng]; exact Bool.false_ne_true)]
  obtain ⟨hcl1, hcl2, hcl3, hcl4⟩ := urlparseE_path_clean hp
  have hc1 : canonical_spotify_url u = "https://open.spotify.com".data ++ p.path := by
    simp only [canonical_spotify_url, hnorm, hp]
    rw [if_pos hhost]
    rw [if_neg (by rw [hemb]; exact Bool.false_ne_true)]
    rw [hslash]
    exact https_host_concat _
  refine ⟨hc1, ?_⟩
  have hparse2 := urlparseE_spotify_concat p.path (hcl4 hnl) hcl2 hcl1 hcl3 (Or.inl hsemi)
  have hraw : pyOrChain [some u, none, none] = u := by
    rw [pyOrChain]
    rw [if_neg (by rw [hie]; exact Bool.false_ne_true)]
  have hpr : processRecord ⟨some u, none, none, none, none, none, none⟩ =
      .ok (some ⟨"https://open.spotify.com".data ++ p.path,
        "https://open.spotify.com".data ++ p.path, []⟩) := by
    have hnemp : ("https://open.spotify.com".data ++ p.path).isEmpty = false := rfl
    have hnq : '?' ∉ "https://open.spotify.com".data ++ p.path := by
      intro hm
      rcases List.mem_append.mp hm with hm1 | hm2
      · exact absurd hm1 (by decide)
      · exact hcl2 hm2
    have hkey : ("https://open.spotify.com".data ++ p.path).takeWhile (fun c => c ≠ '?') =
        "https://open.spotify.com".data ++ p.path := takeWhile_ne_eq_self hnq
    have hgate : (!listHasSub SPOTIFY_HOST ("open.spotify.com".data) ||
        !listHasSub PLAYLIST_TOKEN p.path) = false := by
      rw [htok]
      decide
    simp only [processRecord, hraw, hc1]
    rw [if_neg (by rw [hnemp]; exact Bool.false_ne_true)]
    simp only [hparse2]
    rw [if_neg (by rw [hgate]; exact Bool.false_ne_true)]
    rw [hkey]
    rfl
  rw [only_playlist_results, filterGo_cons]
  simp only [hpr]
  rfl

/-- C10 witness: `c10_substring_host_rewrite` at the crafted host
`open.spotify.com.evil.example`: the record is rewritten to a genuine-looking
Spotify url and appears in the filter output. -/
theorem c10_witness :
    canonical_spotify_url ("https://open.spotify.com.evil.example/playlist/ABC".data) =
      ("https://open.spotify.com/playlist/ABC".data) ∧
    only_playlist_results [⟨some ("https://open.spotify.com.evil.example/playlist/ABC".data),
        none, none, none, none, none, none⟩] =
      .ok [⟨"https://open.spotify.com/playlist/ABC".data,
            "https://open.spotify.com/playlist/ABC".data, []⟩] := by
  have h := c10_substring_host_rewrite
    ("https://open.spotify.com.evil.example/playlist/ABC".data)
    ⟨"https".data, "open.spotify.com.evil.example".data, "/playlist/ABC".data, [], [], []⟩
    (by decide) (by decide) (by decide) (by decide) (by decide) (by decide) (by decide)
  exact ⟨h.1.trans (by decide), h.2.trans (by decide)⟩
